import Mathlib

/-!
# naivechain: a shallow embedding of `main.js`

The node of `main.js` keeps two global variables, the canonical `blockchain`
and the list of open peer connections `sockets`.  Every function of the
source that reads or writes them is rendered here as a function on an explicit
`Node` value; `ws.send` calls are recorded, in order, in the field `sent`.

Modelling conventions.

* Numbers are finite IEEE doubles (negative zero acts as zero in every
  operation of the source and is not told apart).  A block `index` is an
  integer-valued double (the block JSON shape has `index: integer`), carried
  as the integer it denotes; the one arithmetic operation of the source on it,
  `index + 1`, is the rounded sum `jsPlusOne` (so `2^53 + 1` is `2^53`), which
  sends doubles to doubles.  Comparison and the sign of a difference of two
  doubles are those of their values.  A `timestamp` is any finite double,
  carried as the rational it denotes; the clock reading
  `new Date().getTime()/1000` of `generateNextBlock` is an argument of the
  embedded function.
* String concatenation renders a number by the engine's `Number::toString`.
  For an integer of magnitude below `2^53` that is its decimal numeral; for
  every other number it is the parameter `render : ℚ → String`.  The
  definitions assume nothing about `render`; the one theorem that needs a
  property of it takes that property as a hypothesis.
* `CryptoJS.SHA256(..).toString()` is a library function; it is the parameter
  `sha256 : String → String` of every definition that hashes.
* `JSON.stringify` / `JSON.parse` are the identity on message payloads: a
  payload is a list of blocks.  The text `JSON.stringify` gives for a block
  depends on its five values and on the order and number of its keys; the
  field `plainLayout` of a block records whether its keys are those the
  constructor sets, in that order.
* A JavaScript exception (`TypeError` on a property of `undefined`,
  `SyntaxError` of `JSON.parse`) is the `Except.error` result.
* `Array.prototype.sort` is a stable sort (ECMAScript 2019); it is rendered by
  insertion sort.
-/

namespace Naivechain

/-- The `Block` class: five fields, set by the constructor.  A block object
also arises from `JSON.parse` of a peer message; `plainLayout` tells whether
its own keys are exactly `index`, `previousHash`, `timestamp`, `data`, `hash`
in this order, as for every constructed block and its JSON round trip. -/
structure Block where
  index : Int
  previousHash : String
  timestamp : ℚ
  data : String
  hash : String
  plainLayout : Bool
deriving DecidableEq, Repr

/-- A peer connection (`ws`); connections are compared by identity. -/
abbrev Socket := Nat

/-- Source `MessageType.QUERY_LATEST`. -/
def QUERY_LATEST : Nat := 0

/-- Source `MessageType.QUERY_ALL`. -/
def QUERY_ALL : Nat := 1

/-- Source `MessageType.RESPONSE_BLOCKCHAIN`. -/
def RESPONSE_BLOCKCHAIN : Nat := 2

/-- A wire message `{type, data}`; `data` is absent in the two queries. -/
structure Message where
  type : Nat
  data : Option (List Block)
deriving DecidableEq, Repr

/-- The exceptions the embedded functions can throw. -/
inductive JsError where
  | typeError
  | syntaxError
deriving DecidableEq, Repr

/-- The global state of a node: `blockchain`, `sockets`, and the log of
`ws.send` calls (receiver and message), oldest first. -/
structure Node where
  blockchain : List Block
  sockets : List Socket
  sent : List (Socket × Message)
deriving DecidableEq, Repr

/-- Source `getGenesisBlock`: the hard-coded first block. -/
def getGenesisBlock : Block :=
  { index := 0
    previousHash := "0"
    timestamp := 1465154705
    data := "my genesis block!!"
    hash := "816534932c2b7154836da6afc367695e6337db8a921823784c14378abed4f7d7"
    plainLayout := true }

/-- The state at start-up: `blockchain = [getGenesisBlock()]`, `sockets = []`. -/
def initialNode : Node :=
  { blockchain := [getGenesisBlock], sockets := [], sent := [] }

/-- The double-precision sum `x + 1` of an integer-valued double `x`, rounded
to nearest with ties to the even significand.  From `-2^53` up to `2^53 - 1`
the sum is exact.  Beyond, the doubles are `2` or more apart: where they are
`2` apart (magnitude below `2^54`) the sum lies half way between `x` and
`x + 2` and goes to the one whose half is even; where they are further apart
it goes back to `x`. -/
def jsPlusOne (x : Int) : Int :=
  if -9007199254740992 ≤ x ∧ x < 9007199254740992 then x + 1
  else if x.natAbs < 18014398509481984 ∧ (x.natAbs / 2) % 2 = 1 then x + 2
  else x

/-- The engine's `Number::toString`, applied when a number is concatenated to
a string: the decimal numeral for an integer of magnitude below `2^53`, and
the parameter `render` (exponent forms, fractions, shortest round-trip digits)
for every other number. -/
def numberToString (render : ℚ → String) (x : ℚ) : String :=
  if x.den = 1 ∧ x.num.natAbs < 9007199254740992 then toString x.num else render x

/-- Source `calculateHash`: the digest of `index+previousHash+timestamp+data`, where
`+` is string concatenation, the two numbers being rendered by the engine. -/
def calculateHash (sha256 : String → String) (render : ℚ → String) (index : Int)
    (previousHash : String) (timestamp : ℚ) (data : String) : String :=
  sha256 (numberToString render (index : ℚ) ++ previousHash ++
    numberToString render timestamp ++ data)

/-- Source `calculateHashForBlock`. -/
def calculateHashForBlock (sha256 : String → String) (render : ℚ → String)
    (block : Block) : String :=
  calculateHash sha256 render block.index block.previousHash block.timestamp block.data

/-- Source `getLatestBlock`: `blockchain[blockchain.length - 1]`, `undefined` (here
`none`) on an empty array. -/
def getLatestBlock (s : Node) : Option Block :=
  s.blockchain.getLast?

/-- Source `generateNextBlock`; reading `previousBlock.index` of `undefined` throws. -/
def generateNextBlock (sha256 : String → String) (render : ℚ → String)
    (s : Node) (blockData : String)
    (nextTimestamp : ℚ) : Except JsError Block :=
  match getLatestBlock s with
  | none => .error .typeError
  | some previousBlock =>
    let nextIndex := jsPlusOne previousBlock.index
    let nextHash := calculateHash sha256 render nextIndex previousBlock.hash nextTimestamp blockData
    .ok { index := nextIndex, previousHash := previousBlock.hash,
          timestamp := nextTimestamp, data := blockData, hash := nextHash,
          plainLayout := true }

/-- Source `isValidNewBlock`: three checks in sequence, each returning `false`. -/
def isValidNewBlock (sha256 : String → String) (render : ℚ → String)
    (newBlock previousBlock : Block) : Bool :=
  if jsPlusOne previousBlock.index ≠ newBlock.index then false
  else if previousBlock.hash ≠ newBlock.previousHash then false
  else if calculateHashForBlock sha256 render newBlock ≠ newBlock.hash then false
  else true

/-- The `for` loop of `isValidChain`: the first argument is `tempBlocks`, the
second the blocks from position `i` on.  `tempBlocks` has length `i`, so
`tempBlocks[i - 1]` is its last element; it is never empty, the loop being
entered with `[blockchainToValidate[0]]`. -/
def isValidChainLoop (sha256 : String → String) (render : ℚ → String) :
    List Block → List Block → Bool
  | _, [] => true
  | tempBlocks, b :: rest =>
    match tempBlocks.getLast? with
    | none => false
    | some previousBlock =>
      if isValidNewBlock sha256 render b previousBlock then
        isValidChainLoop sha256 render (tempBlocks ++ [b]) rest
      else false

/-- Source `isValidChain`.  On the empty array `blockchainToValidate[0]` is
`undefined`, whose `JSON.stringify` is not the string of the genesis block.
The `JSON.stringify` texts of a block and of the genesis block (a constructed
one) are the same exactly when the five values are the same and the block has
the constructor's key layout, which is equality of the two `Block` values. -/
def isValidChain (sha256 : String → String) (render : ℚ → String)
    (blockchainToValidate : List Block) : Bool :=
  match blockchainToValidate with
  | [] => false
  | first :: rest =>
    if first ≠ getGenesisBlock then false
    else isValidChainLoop sha256 render [first] rest

/-- Source `queryChainLengthMsg`. -/
def queryChainLengthMsg : Message := { type := QUERY_LATEST, data := none }

/-- Source `queryAllMsg`. -/
def queryAllMsg : Message := { type := QUERY_ALL, data := none }

/-- Source `responseChainMsg`. -/
def responseChainMsg (s : Node) : Message :=
  { type := RESPONSE_BLOCKCHAIN, data := some s.blockchain }

/-- Source `responseLatestMsg`: the payload is `[getLatestBlock()]`.  (On an empty
chain the source serialises `[undefined]`, i.e. `[null]`; that entry carries no
block and is left out here.) -/
def responseLatestMsg (s : Node) : Message :=
  { type := RESPONSE_BLOCKCHAIN, data := some (getLatestBlock s).toList }

/-- Source `write`: one `ws.send`. -/
def write (s : Node) (ws : Socket) (message : Message) : Node :=
  { s with sent := s.sent ++ [(ws, message)] }

/-- Source `broadcast`: `write` to every socket, in registry order. -/
def broadcast (s : Node) (message : Message) : Node :=
  s.sockets.foldl (fun acc socket => write acc socket message) s

/-- Source `replaceChain` (both definitions in the source have this body). -/
def replaceChain (sha256 : String → String) (render : ℚ → String)
    (s : Node) (newBlocks : List Block) : Node :=
  if isValidChain sha256 render newBlocks && decide (newBlocks.length > s.blockchain.length) then
    let s1 := { s with blockchain := newBlocks }
    broadcast s1 (responseLatestMsg s1)
  else s

/-- Source `addBlock`; with no latest block `isValidNewBlock` reads a property of
`undefined` and throws. -/
def addBlock (sha256 : String → String) (render : ℚ → String)
    (s : Node) (newBlock : Block) : Except JsError Node :=
  match getLatestBlock s with
  | none => .error .typeError
  | some latest =>
    if isValidNewBlock sha256 render newBlock latest then
      .ok { s with blockchain := s.blockchain ++ [newBlock] }
    else .ok s

/-- The comparator `(b1, b2) => b1.index - b2.index` as an order: `b1` stays
before `b2` when the difference is not positive. -/
def indexLe (b1 b2 : Block) : Prop := b1.index ≤ b2.index

instance : DecidableRel indexLe := fun b1 b2 => Int.decLe b1.index b2.index

/-- Source `receivedBlocks.sort((b1, b2) => b1.index - b2.index)`. -/
def sortByIndex (blocks : List Block) : List Block :=
  blocks.insertionSort indexLe

/-- Source `handleBlockchainResponse`. -/
def handleBlockchainResponse (sha256 : String → String) (render : ℚ → String)
    (s : Node) (message : Message) :
    Except JsError Node :=
  match message.data with
  | none => .error .syntaxError
  | some parsed =>
    let receivedBlocks := sortByIndex parsed
    match receivedBlocks.getLast?, getLatestBlock s with
    | none, _ => .error .typeError
    | some _, none => .error .typeError
    | some latestBlockReceived, some latestBlockHeld =>
      if latestBlockReceived.index > latestBlockHeld.index then
        if latestBlockHeld.hash = latestBlockReceived.previousHash then
          let s1 := { s with blockchain := s.blockchain ++ [latestBlockReceived] }
          .ok (broadcast s1 (responseLatestMsg s1))
        else if receivedBlocks.length = 1 then
          .ok (broadcast s queryAllMsg)
        else
          .ok (replaceChain sha256 render s receivedBlocks)
      else .ok s

/-! ### The request and connection handlers, and the operations of a node -/

/-- The argument that `calculateHash` passes to the digest:
`index+previousHash+timestamp+data`. -/
def hashInput (render : ℚ → String) (index : Int) (previousHash : String) (timestamp : ℚ)
    (data : String) : String :=
  numberToString render (index : ℚ) ++ previousHash ++ numberToString render timestamp ++ data

/-- The handler of `POST /mineBlock`: `generateNextBlock(req.body.data)`,
`addBlock(newBlock)`, `broadcast(responseLatestMsg())`.  The two calls that
can throw come before the broadcast. -/
def mineBlock (sha256 : String → String) (render : ℚ → String) (s : Node) (data : String)
    (nextTimestamp : ℚ) :
    Except JsError Node :=
  match generateNextBlock sha256 render s data nextTimestamp with
  | .error e => .error e
  | .ok newBlock =>
    match addBlock sha256 render s newBlock with
    | .error e => .error e
    | .ok s1 => .ok (broadcast s1 (responseLatestMsg s1))

/-- The message handler installed by `initMessageHandler(ws)`, applied to a
parsed message: a `switch` on `message.type` with no default case. -/
def initMessageHandler (sha256 : String → String) (render : ℚ → String) (s : Node) (ws : Socket)
    (message : Message) : Except JsError Node :=
  if message.type = QUERY_LATEST then .ok (write s ws (responseLatestMsg s))
  else if message.type = QUERY_ALL then .ok (write s ws (responseChainMsg s))
  else if message.type = RESPONSE_BLOCKCHAIN then handleBlockchainResponse sha256 render s message
  else .ok s

/-- The library call `Array.prototype.indexOf`: the first position of `ws`, or
`-1` when it does not occur. -/
def jsIndexOf (sockets : List Socket) (ws : Socket) : Int :=
  if ws ∈ sockets then (sockets.indexOf ws : Int) else -1

/-- The library call `Array.prototype.splice(start, deleteCount)`: a negative
`start` counts from the end (`max(len + start, 0)`), a non-negative one is
capped at the length; `deleteCount` elements (as many as there are) are removed
from there. -/
def jsSplice (sockets : List Socket) (start : Int) (deleteCount : Nat) : List Socket :=
  let len : Int := sockets.length
  let actualStart : Nat := if start < 0 then (max (len + start) 0).toNat else (min start len).toNat
  sockets.take actualStart ++ sockets.drop (actualStart + deleteCount)

/-- Source `closeConnection` (in `initErrorHandler`), the handler of both the
`close` and the `error` event: `sockets.splice(sockets.indexOf(ws), 1)`. -/
def closeConnection (s : Node) (ws : Socket) : Node :=
  { s with sockets := jsSplice s.sockets (jsIndexOf s.sockets ws) 1 }

/-- Source `initConnection`: `sockets.push(ws)`, then (the handlers being
installed) `write(ws, queryChainLengthMsg())`. -/
def initConnection (s : Node) (ws : Socket) : Node :=
  write { s with sockets := s.sockets ++ [ws] } ws queryChainLengthMsg

/-- The operations of a node: the mining request, the two chain mutators, a
message arriving on a connection, a connection being opened, and a connection
reporting `close` or `error`. -/
inductive Operation where
  | mine (data : String) (nextTimestamp : ℚ)
  | add (newBlock : Block)
  | replace (newBlocks : List Block)
  | message (ws : Socket) (message : Message)
  | connect (ws : Socket)
  | close (ws : Socket)
deriving DecidableEq, Repr

/-- One operation, by the function of the source that performs it. -/
def perform (sha256 : String → String) (render : ℚ → String)
    (s : Node) : Operation → Except JsError Node
  | .mine data nextTimestamp => mineBlock sha256 render s data nextTimestamp
  | .add newBlock => addBlock sha256 render s newBlock
  | .replace newBlocks => .ok (replaceChain sha256 render s newBlocks)
  | .message ws message => initMessageHandler sha256 render s ws message
  | .connect ws => .ok (initConnection s ws)
  | .close ws => .ok (closeConnection s ws)

/-- The node state after an operation.  Every `throw` of the embedded functions
precedes their first write to `blockchain` or `sockets` and their first
`ws.send`, so an operation that throws leaves the state as it was. -/
def after (sha256 : String → String) (render : ℚ → String) (s : Node) (op : Operation) : Node :=
  match perform sha256 render s op with
  | .ok s1 => s1
  | .error _ => s

/-- The node states that a sequence of operations leads to from the state at
start-up. -/
inductive Reachable (sha256 : String → String) (render : ℚ → String) : Node → Prop where
  | init : Reachable sha256 render initialNode
  | step (s : Node) (op : Operation) : Reachable sha256 render s → Reachable sha256 render (after sha256 render s op)

/-! ### Concrete nodes and blocks

Inputs at which the functions above are evaluated in the theorems below. -/

/-- A stand-in for the engine's rendering of the numbers that are not
integers of magnitude below `2^53`. -/
def sampleRender : ℚ → String := fun _ => "?"

/-- An injective stand-in for the engine's rendering of the numbers that are
not integers of magnitude below `2^53`: a mark followed by as many letters as
the position of the number in an enumeration of the rationals. -/
def tallyRender : ℚ → String :=
  fun x => String.mk ('#' :: List.replicate (Encodable.encode x) 'a')

/-- A node holding only the genesis block, with two registered peers. -/
def peerNode : Node :=
  { blockchain := [getGenesisBlock], sockets := [1, 2], sent := [] }

/-- A block that links to the genesis block by `previousHash` but claims index
`5` and carries a hash that no digest was computed for. -/
def gapBlock : Block :=
  { index := 5
    previousHash := getGenesisBlock.hash
    timestamp := 0
    data := "x"
    hash := "bogus"
    plainLayout := true }

/-- A block that links to the genesis block by `previousHash` and has the
genesis block's own index `0`. -/
def staleLinkedBlock : Block :=
  { index := 0
    previousHash := getGenesisBlock.hash
    timestamp := 0
    data := "x"
    hash := "h"
    plainLayout := true }

/-- A block with index `0` whose `previousHash` is not the genesis hash. -/
def staleStrayBlock : Block :=
  { index := 0
    previousHash := "elsewhere"
    timestamp := 0
    data := "x"
    hash := "h"
    plainLayout := true }

/-- A block with index `3` whose `previousHash` is not the genesis hash. -/
def aheadStrayBlock : Block :=
  { index := 3
    previousHash := "elsewhere"
    timestamp := 0
    data := "x"
    hash := "h"
    plainLayout := true }

/-- The successor of `previousBlock` with payload `blockData` and timestamp
`0`, hashed with the identity function in place of the digest. -/
def sampleNext (previousBlock : Block) (blockData : String) : Block :=
  { index := jsPlusOne previousBlock.index
    previousHash := previousBlock.hash
    timestamp := 0
    data := blockData
    hash := calculateHash id sampleRender (jsPlusOne previousBlock.index) previousBlock.hash 0
      blockData
    plainLayout := true }

/-- A chain of length 2 above the genesis block (identity digest). -/
def sampleChain2 : List Block :=
  [getGenesisBlock, sampleNext getGenesisBlock "p"]

/-- A chain of length 3 above the genesis block (identity digest). -/
def sampleChain3 : List Block :=
  [getGenesisBlock, sampleNext getGenesisBlock "a",
   sampleNext (sampleNext getGenesisBlock "a") "b"]

/-- A chain of length 5 above the genesis block (identity digest), branching
from `sampleChain3` at the first block. -/
def sampleChain5 : List Block :=
  [getGenesisBlock, sampleNext getGenesisBlock "u",
   sampleNext (sampleNext getGenesisBlock "u") "v",
   sampleNext (sampleNext (sampleNext getGenesisBlock "u") "v") "w",
   sampleNext (sampleNext (sampleNext (sampleNext getGenesisBlock "u") "v") "w") "x"]

/-- A node holding `sampleChain3`, with two registered peers. -/
def sampleNode3 : Node :=
  { blockchain := sampleChain3, sockets := [1, 2], sent := [] }

/-- The genesis values in an object with another key layout, as `JSON.parse`
gives for a text that lists the same five members in another order. -/
def relaidGenesis : Block :=
  { getGenesisBlock with plainLayout := false }

/-- A block that links to the genesis block by `previousHash` and has the
index `2^53`. -/
def hugeBlock : Block :=
  { index := 9007199254740992
    previousHash := getGenesisBlock.hash
    timestamp := 0
    data := "x"
    hash := "h"
    plainLayout := true }

/-- A node holding the genesis block and `hugeBlock`, with two registered
peers: the state of `peerNode` after a response carrying `hugeBlock`. -/
def hugeNode : Node :=
  { blockchain := [getGenesisBlock, hugeBlock], sockets := [1, 2], sent := [] }

instance : IsTrans Block indexLe := ⟨fun _ _ _ h1 h2 => Int.le_trans h1 h2⟩

instance : IsTotal Block indexLe := ⟨fun a b => Int.le_total a.index b.index⟩

/-! ### Notions used in the proofs -/

/-- The strict order on blocks by index. -/
def indexLt (b1 b2 : Block) : Prop := b1.index < b2.index

instance : IsAntisymm Block indexLt := ⟨fun _ _ h1 h2 => absurd h1 (Int.lt_asymm h2)⟩

instance : IsTrans Block indexLt := ⟨fun _ _ _ h1 h2 => Int.lt_trans h1 h2⟩

/-- The value of a decimal digit character. -/
def digitValue (c : Char) : Nat := c.toNat - 48

/-- The number a list of decimal digit characters denotes, most significant
digit first. -/
def digitsValue (l : List Char) : Nat :=
  l.foldl (fun acc c => acc * 10 + digitValue c) 0

/-- The relation between the indices of neighbouring blocks that every
operation maintains: the later index is greater, or it is the rounded sum
`index + 1` of the earlier. -/
def indexStep (b1 b2 : Block) : Prop :=
  b1.index < b2.index ∨ b2.index = jsPlusOne b1.index

/-- The three ways an operation may relate the chain before (`s`) to the chain
after (`s1`): left as it was; extended at the end by one block whose index
exceeds that of the former last block or is its rounded successor; or replaced
as a whole by a strictly longer chain that `isValidChain` accepts. -/
def ChainStep (sha256 : String → String) (render : ℚ → String) (s s1 : Node) : Prop :=
  s1.blockchain = s.blockchain ∨
  (∃ b tip, getLatestBlock s = some tip ∧ indexStep tip b ∧
    s1.blockchain = s.blockchain ++ [b]) ∨
  (isValidChain sha256 render s1.blockchain = true ∧ s1.blockchain.length > s.blockchain.length)

/-! ## Auxiliary facts -/

theorem getLatestBlock_eq_getLast (s : Node) (hc : s.blockchain ≠ []) :
    getLatestBlock s = some (s.blockchain.getLast hc) := by
  unfold getLatestBlock
  exact List.getLast?_eq_getLast _ hc

/-- From `-2^53` up to `2^53 - 1` the rounded sum `x + 1` is the exact one. -/
theorem jsPlusOne_safe (x : Int) (h1 : -9007199254740992 ≤ x) (h2 : x < 9007199254740992) :
    jsPlusOne x = x + 1 := by
  unfold jsPlusOne
  rw [if_pos ⟨h1, h2⟩]

/-- The rounded sum `x + 1` is never below `x`. -/
theorem le_jsPlusOne (x : Int) : x ≤ jsPlusOne x := by
  unfold jsPlusOne
  split_ifs <;> omega

/-- The rounded sum `x + 1` is `x + 1`, `x + 2` or `x`; it is `x + 1` exactly
on the range where the sum is exact. -/
theorem jsPlusOne_cases (x : Int) :
    (jsPlusOne x = x + 1 ∧ -9007199254740992 ≤ x ∧ x < 9007199254740992) ∨
    ((jsPlusOne x = x + 2 ∨ jsPlusOne x = x) ∧
      ¬ (-9007199254740992 ≤ x ∧ x < 9007199254740992)) := by
  unfold jsPlusOne
  split_ifs with h1 h2
  · exact Or.inl ⟨rfl, h1⟩
  · exact Or.inr ⟨Or.inl rfl, h1⟩
  · exact Or.inr ⟨Or.inr rfl, h1⟩

/-- An integer of magnitude below `2^53` is rendered as its decimal numeral. -/
theorem numberToString_int (render : ℚ → String) (n : Int) (h : n.natAbs < 9007199254740992) :
    numberToString render (n : ℚ) = toString n := by
  unfold numberToString
  rw [if_pos]
  · simp
  · simpa using h

theorem isValidNewBlock_eq_true (sha256 : String → String) (render : ℚ → String) (b p : Block) :
    isValidNewBlock sha256 render b p = true ↔
      b.index = jsPlusOne p.index ∧ b.previousHash = p.hash ∧
        calculateHashForBlock sha256 render b = b.hash := by
  unfold isValidNewBlock
  constructor
  · intro h
    split_ifs at h with h1 h2 h3
    exact ⟨(not_not.mp h1).symm, (not_not.mp h2).symm, not_not.mp h3⟩
  · rintro ⟨h1, h2, h3⟩
    simp [h1, h2, h3]

/-- The loop of `isValidChain`, entered with a last accepted block `p`, accepts
exactly when each block is a valid successor of the one before it. -/
theorem isValidChainLoop_eq_true (sha256 : String → String) (render : ℚ → String)
    (rest : List Block) :
    ∀ (temp : List Block) (p : Block),
      isValidChainLoop sha256 render (temp ++ [p]) rest = true ↔
        List.Chain (fun prev b => isValidNewBlock sha256 render b prev = true) p rest := by
  induction rest with
  | nil => intro temp p; simp [isValidChainLoop]
  | cons b rest ih =>
    intro temp p
    rw [isValidChainLoop, List.getLast?_concat]
    by_cases hv : isValidNewBlock sha256 render b p = true
    · simp only [hv, if_true, List.chain_cons, true_and]
      exact ih (temp ++ [p]) b
    · simp [hv]

theorem isValidChain_eq_true_chain (sha256 : String → String) (render : ℚ → String)
    (C : List Block) :
    isValidChain sha256 render C = true ↔
      C.head? = some getGenesisBlock ∧
        List.Chain' (fun prev b => isValidNewBlock sha256 render b prev = true) C := by
  cases C with
  | nil => simp [isValidChain]
  | cons first rest =>
    unfold isValidChain
    by_cases hg : first = getGenesisBlock
    · subst hg
      have := isValidChainLoop_eq_true sha256 render rest [] getGenesisBlock
      simp only [List.nil_append] at this
      simpa [List.Chain'] using this
    · simp [hg]

theorem broadcast_eq (s : Node) (m : Message) :
    broadcast s m = { s with sent := s.sent ++ s.sockets.map (fun ws => (ws, m)) } := by
  have key : ∀ (l : List Socket) (t : Node),
      l.foldl (fun acc socket => write acc socket m) t
        = { t with sent := t.sent ++ l.map (fun ws => (ws, m)) } := by
    intro l
    induction l with
    | nil => intro t; simp
    | cons a l ih => intro t; rw [List.foldl_cons, ih]; simp [write]
  exact key s.sockets s

theorem sortByIndex_singleton (b : Block) : sortByIndex [b] = [b] := rfl

theorem sortByIndex_ne_nil (blocks : List Block) (h : blocks ≠ []) : sortByIndex blocks ≠ [] := by
  intro h0
  have := List.length_insertionSort indexLe blocks
  unfold sortByIndex at h0
  rw [h0] at this
  exact h (List.length_eq_zero.mp this.symm)

/-- The body of `handleBlockchainResponse` once the received and the held
latest blocks are known. -/
theorem handleBlockchainResponse_eq (sha256 : String → String) (render : ℚ → String)
    (s : Node) (t : Nat)
    (blocks : List Block) (received held : Block)
    (hr : (sortByIndex blocks).getLast? = some received)
    (hh : getLatestBlock s = some held) :
    handleBlockchainResponse sha256 render s { type := t, data := some blocks } =
      if received.index > held.index then
        if held.hash = received.previousHash then
          .ok { blockchain := s.blockchain ++ [received], sockets := s.sockets,
                sent := s.sent ++ s.sockets.map
                  (fun ws => (ws, { type := RESPONSE_BLOCKCHAIN, data := some [received] })) }
        else if (sortByIndex blocks).length = 1 then
          .ok { s with sent := s.sent ++ s.sockets.map (fun ws => (ws, queryAllMsg)) }
        else .ok (replaceChain sha256 render s (sortByIndex blocks))
      else .ok s := by
  unfold getLatestBlock at hh
  simp only [handleBlockchainResponse, hr, hh, broadcast_eq, responseLatestMsg, getLatestBlock,
    List.getLast?_concat, Option.toList]

/-- In a chain accepted by `isValidChain` the block at position `i` has index
`i`, as far as `i` does not exceed `2^53`. -/
theorem isValidChain_index (sha256 : String → String) (render : ℚ → String) (C : List Block)
    (hv : isValidChain sha256 render C = true) :
    ∀ (i : Nat) (h : i < C.length), i ≤ 9007199254740992 →
      (C.get ⟨i, h⟩).index = (i : Int) := by
  rw [isValidChain_eq_true_chain, List.chain'_iff_get] at hv
  obtain ⟨hh, hc⟩ := hv
  intro i
  induction i with
  | zero =>
    intro h _
    cases C with
    | nil => simp at h
    | cons a l =>
      simp only [List.head?_cons, Option.some.injEq] at hh
      subst hh
      rfl
  | succ n ih =>
    intro h hb
    have h1 := (isValidNewBlock_eq_true sha256 render _ _).mp (hc n (by omega))
    rw [h1.1, ih (by omega) (by omega), jsPlusOne_safe _ (by omega) (by omega)]
    push_cast
    rfl

/-- A chain accepted by `isValidChain` is already sorted by index. -/
theorem isValidChain_sortByIndex (sha256 : String → String) (render : ℚ → String) (C : List Block)
    (hv : isValidChain sha256 render C = true) : sortByIndex C = C := by
  rw [isValidChain_eq_true_chain] at hv
  have hchain : List.Chain' indexLe C := by
    refine List.Chain'.imp ?_ hv.2
    intro a b hab
    have := ((isValidNewBlock_eq_true sha256 render _ _).mp hab).1
    unfold indexLe
    rw [this]
    exact le_jsPlusOne _
  exact List.Sorted.insertionSort_eq (List.chain'_iff_pairwise.mp hchain)

/-- Effect of `replaceChain` on a valid and longer candidate: the candidate becomes the
chain and its last block is announced to every peer. -/
theorem replaceChain_valid_longer (sha256 : String → String) (render : ℚ → String)
    (s : Node) (C : List Block)
    (h : isValidChain sha256 render C = true ∧ C.length > s.blockchain.length) :
    replaceChain sha256 render s C =
      { blockchain := C, sockets := s.sockets,
        sent := s.sent ++ s.sockets.map
          (fun ws => (ws, { type := RESPONSE_BLOCKCHAIN, data := some C.getLast?.toList })) } := by
  obtain ⟨hv, hl⟩ := h
  simp [replaceChain, hv, hl, broadcast_eq, responseLatestMsg, getLatestBlock]

/-- Effect of `replaceChain` on a candidate that is invalid or not longer: no effect. -/
theorem replaceChain_rejected (sha256 : String → String) (render : ℚ → String)
    (s : Node) (C : List Block)
    (h : ¬ (isValidChain sha256 render C = true ∧ C.length > s.blockchain.length)) :
    replaceChain sha256 render s C = s := by
  unfold replaceChain
  rw [if_neg]
  simpa using h

/-- The last block of a chain accepted by `isValidChain`, of length `n + 1`
with `n` not above `2^53`, has index `n`, and when `n > 0` its stored hash is
its recomputed hash and its `previousHash` is the hash of the block before it. -/
theorem isValidChain_getLast (sha256 : String → String) (render : ℚ → String) (C : List Block)
    (n : Nat) (hv : isValidChain sha256 render C = true) (hl : C.length = n + 1)
    (hn53 : n ≤ 9007199254740992) :
    ∃ tip, C.getLast? = some tip ∧ tip.index = (n : Int) ∧
      (∀ (h : n - 1 < C.length), 0 < n →
        calculateHashForBlock sha256 render tip = tip.hash ∧
        tip.previousHash = (C.get ⟨n - 1, h⟩).hash) := by
  have hn : n < C.length := by omega
  refine ⟨C.get ⟨n, hn⟩, ?_, isValidChain_index sha256 render C hv n hn hn53, ?_⟩
  · have e : C.length - 1 = n := by omega
    rw [List.getLast?_eq_getElem?, e, List.getElem?_eq_getElem hn]
    rfl
  · intro h hpos
    rw [isValidChain_eq_true_chain, List.chain'_iff_get] at hv
    have h1 := (isValidNewBlock_eq_true sha256 render _ _).mp (hv.2 (n - 1) (by omega))
    have e : n - 1 + 1 = n := by omega
    simp only [e] at h1
    exact ⟨h1.2.2, h1.2.1⟩

theorem digest_input_ne (render : ℚ → String) (x y : String) :
    numberToString render ((2 : Int) : ℚ) ++ x ≠ numberToString render ((3 : Int) : ℚ) ++ y := by
  intro h
  have h2 : toString (2 : Int) = "2" := by decide
  have h3 : toString (3 : Int) = "3" := by decide
  rw [numberToString_int render 2 (by decide), numberToString_int render 3 (by decide),
    h2, h3] at h
  have := congrArg String.data h
  simp [String.data_append] at this

theorem calculateHashForBlock_ne (sha256 : String → String) (render : ℚ → String)
    (hinj : Function.Injective sha256)
    (a b : Block) (ha : a.index = 2) (hb : b.index = 3) :
    calculateHashForBlock sha256 render a ≠ calculateHashForBlock sha256 render b := by
  intro h
  unfold calculateHashForBlock calculateHash at h
  have := hinj h
  rw [ha, hb, String.append_assoc, String.append_assoc, String.append_assoc,
    String.append_assoc] at this
  exact digest_input_ne render _ _ this

/-- The fast path of `handleBlockchainResponse` on a single received block:
a block that links to the held latest block and has a greater index is pushed
onto the chain and announced, whatever its index gap and stored hash. -/
theorem handleBlockchainResponse_fastPath (sha256 : String → String) (render : ℚ → String)
    (s : Node) (t : Nat)
    (b : Block) (hc : s.blockchain ≠ [])
    (hidx : b.index > (s.blockchain.getLast hc).index)
    (hlink : b.previousHash = (s.blockchain.getLast hc).hash) :
    handleBlockchainResponse sha256 render s { type := t, data := some [b] } =
      .ok { blockchain := s.blockchain ++ [b], sockets := s.sockets,
            sent := s.sent ++ s.sockets.map
              (fun ws => (ws, { type := RESPONSE_BLOCKCHAIN, data := some [b] })) } := by
  rw [handleBlockchainResponse_eq sha256 render s t [b] b _ rfl (getLatestBlock_eq_getLast s hc),
    if_pos hidx, if_pos hlink.symm]

/-- On a non-empty chain `generateNextBlock` returns the successor of the last
block, carrying the payload, the clock reading and the digest of its fields. -/
theorem generateNextBlock_eq (sha256 : String → String) (render : ℚ → String)
    (s : Node) (d : String)
    (nextTimestamp : ℚ) (hc : s.blockchain ≠ []) :
    generateNextBlock sha256 render s d nextTimestamp =
      .ok { index := jsPlusOne (s.blockchain.getLast hc).index
            previousHash := (s.blockchain.getLast hc).hash
            timestamp := nextTimestamp
            data := d
            hash := calculateHash sha256 render (jsPlusOne (s.blockchain.getLast hc).index)
              (s.blockchain.getLast hc).hash nextTimestamp d
            plainLayout := true } := by
  simp only [generateNextBlock, getLatestBlock_eq_getLast s hc]

/-- A block returned by `generateNextBlock` is a valid new block for the last
block of the chain it was built from. -/
theorem generateNextBlock_isValid (sha256 : String → String) (render : ℚ → String)
    (s : Node) (d : String)
    (nextTimestamp : ℚ) (b : Block) (hc : s.blockchain ≠ [])
    (hb : generateNextBlock sha256 render s d nextTimestamp = .ok b) :
    isValidNewBlock sha256 render b (s.blockchain.getLast hc) = true := by
  rw [generateNextBlock_eq sha256 render s d nextTimestamp hc] at hb
  injection hb with hb
  subst hb
  rw [isValidNewBlock_eq_true]
  exact ⟨rfl, rfl, rfl⟩

/-- The mining handler on a non-empty chain: the generated block is appended and
announced to every peer. -/
theorem mineBlock_eq (sha256 : String → String) (render : ℚ → String) (s : Node) (d : String)
    (nextTimestamp : ℚ) (b : Block) (hc : s.blockchain ≠ [])
    (hb : generateNextBlock sha256 render s d nextTimestamp = .ok b) :
    mineBlock sha256 render s d nextTimestamp =
      .ok { blockchain := s.blockchain ++ [b], sockets := s.sockets,
            sent := s.sent ++ s.sockets.map
              (fun ws => (ws, { type := RESPONSE_BLOCKCHAIN, data := some [b] })) } := by
  have hv := generateNextBlock_isValid sha256 render s d nextTimestamp b hc hb
  have hadd : addBlock sha256 render s b = .ok { s with blockchain := s.blockchain ++ [b] } := by
    simp only [addBlock, getLatestBlock_eq_getLast s hc, hv, if_true]
  simp only [mineBlock, hb, hadd, broadcast_eq, responseLatestMsg, getLatestBlock,
    List.getLast?_concat, Option.toList]

/-- Sorting by index sends two arrangements of the same blocks to the same list
when no two blocks share an index. -/
theorem sortByIndex_perm (l1 l2 : List Block) (hperm : l1.Perm l2)
    (hnodup : (l1.map Block.index).Nodup) : sortByIndex l1 = sortByIndex l2 := by
  have strict : ∀ l : List Block, (l.map Block.index).Nodup →
      (sortByIndex l).Sorted indexLt := by
    intro l hl
    have hs : (sortByIndex l).Pairwise indexLe := List.sorted_insertionSort indexLe l
    have hn : ((sortByIndex l).map Block.index).Nodup :=
      ((List.perm_insertionSort indexLe l).map Block.index).nodup_iff.mpr hl
    have hne : (sortByIndex l).Pairwise (fun a b => a.index ≠ b.index) := by
      unfold List.Nodup at hn
      exact List.pairwise_map.mp hn
    refine (hs.and hne).imp ?_
    intro a b hab
    exact lt_of_le_of_ne hab.1 hab.2
  have hnodup2 : (l2.map Block.index).Nodup := (hperm.map Block.index).nodup_iff.mp hnodup
  have hp : (sortByIndex l1).Perm (sortByIndex l2) :=
    (List.perm_insertionSort indexLe l1).trans
      (hperm.trans (List.perm_insertionSort indexLe l2).symm)
  exact List.eq_of_perm_of_sorted hp (strict l1 hnodup) (strict l2 hnodup2)

theorem digitValue_digitChar (k : Nat) (h : k < 10) : digitValue (Nat.digitChar k) = k := by
  interval_cases k <;> rfl

theorem digitChar_ne_minus (k : Nat) (h : k < 10) : Nat.digitChar k ≠ '-' := by
  interval_cases k <;> decide

theorem foldl_digits_shift (l : List Char) :
    ∀ a : Nat, l.foldl (fun acc c => acc * 10 + digitValue c) a =
      a * 10 ^ l.length + digitsValue l := by
  induction l with
  | nil => intro a; simp [digitsValue]
  | cons c l ih =>
    intro a
    simp only [List.foldl_cons, List.length_cons, digitsValue]
    rw [ih (a * 10 + digitValue c), ih (0 * 10 + digitValue c)]
    ring

theorem digitsValue_cons (c : Char) (l : List Char) :
    digitsValue (c :: l) = digitValue c * 10 ^ l.length + digitsValue l := by
  have := foldl_digits_shift l (0 * 10 + digitValue c)
  simp only [Nat.zero_mul, Nat.zero_add] at this
  simpa [digitsValue] using this

theorem toDigitsCore_value (fuel : Nat) :
    ∀ (n : Nat) (ds : List Char), n < fuel →
      digitsValue (Nat.toDigitsCore 10 fuel n ds) = n * 10 ^ ds.length + digitsValue ds := by
  induction fuel with
  | zero => intro n ds h; omega
  | succ fuel ih =>
    intro n ds h
    unfold Nat.toDigitsCore
    by_cases h0 : n / 10 = 0
    · simp only [h0, if_true]
      have hn : n % 10 = n := by omega
      rw [digitsValue_cons, digitValue_digitChar _ (Nat.mod_lt _ (by norm_num)), hn]
    · simp only [h0, if_false]
      rw [ih (n / 10) _ (by omega), digitsValue_cons,
        digitValue_digitChar _ (Nat.mod_lt _ (by norm_num)), List.length_cons, pow_succ]
      have e : n * 10 ^ ds.length = (10 * (n / 10) + n % 10) * 10 ^ ds.length := by
        rw [Nat.div_add_mod n 10]
      rw [e]
      ring

theorem toDigitsCore_head (fuel : Nat) :
    ∀ (n : Nat) (ds : List Char),
      ∃ k tl, k < 10 ∧ Nat.toDigitsCore 10 (fuel + 1) n ds = Nat.digitChar k :: tl := by
  induction fuel with
  | zero =>
    intro n ds
    refine ⟨n % 10, ds, Nat.mod_lt _ (by norm_num), ?_⟩
    unfold Nat.toDigitsCore
    by_cases h0 : n / 10 = 0
    · simp [h0]
    · simp [h0, Nat.toDigitsCore]
  | succ fuel ih =>
    intro n ds
    by_cases h0 : n / 10 = 0
    · refine ⟨n % 10, ds, Nat.mod_lt _ (by norm_num), ?_⟩
      rw [Nat.toDigitsCore]
      simp [h0]
    · obtain ⟨k, tl, hk, h⟩ := ih (n / 10) (Nat.digitChar (n % 10) :: ds)
      refine ⟨k, tl, hk, ?_⟩
      rw [Nat.toDigitsCore]
      simp only [h0, if_false]
      exact h

theorem digitsValue_repr (n : Nat) : digitsValue (Nat.repr n).data = n := by
  have := toDigitsCore_value (n + 1) n [] (by omega)
  simpa [Nat.repr, Nat.toDigits, List.asString, digitsValue] using this

theorem repr_head (n : Nat) : ∃ k tl, k < 10 ∧ (Nat.repr n).data = Nat.digitChar k :: tl := by
  obtain ⟨k, tl, hk, h⟩ := toDigitsCore_head n n []
  exact ⟨k, tl, hk, by simpa [Nat.repr, Nat.toDigits, List.asString] using h⟩

theorem repr_injective (m n : Nat) (h : Nat.repr m = Nat.repr n) : m = n := by
  rw [← digitsValue_repr m, ← digitsValue_repr n, h]

/-- The decimal rendering of integers is injective. -/
theorem toString_int_injective (a b : Int) (h : toString a = toString b) : a = b := by
  have hneg : ∀ (m : Nat) (k : Nat), Nat.repr m ≠ "-" ++ Nat.repr k := by
    intro m k hmk
    obtain ⟨j, tl, hj, hd⟩ := repr_head m
    have := congrArg String.data hmk
    rw [hd, String.data_append] at this
    have hhead : Nat.digitChar j = '-' := (List.cons.inj this).1
    exact digitChar_ne_minus j hj hhead
  cases a with
  | ofNat m =>
    cases b with
    | ofNat n =>
      have : Nat.repr m = Nat.repr n := h
      rw [repr_injective m n this]
    | negSucc n =>
      have : Nat.repr m = "-" ++ Nat.repr (n + 1) := h
      exact absurd this (hneg m (n + 1))
  | negSucc m =>
    cases b with
    | ofNat n =>
      have : "-" ++ Nat.repr (m + 1) = Nat.repr n := h
      exact absurd this.symm (hneg n (m + 1))
    | negSucc n =>
      have : "-" ++ Nat.repr (m + 1) = "-" ++ Nat.repr (n + 1) := h
      have hd := congrArg String.data this
      rw [String.data_append, String.data_append] at hd
      have := repr_injective _ _ (String.ext (List.append_cancel_left hd))
      have hmn : m = n := by omega
      rw [hmn]

theorem digitChar_ne_mark (k : Nat) (h : k < 10) : Nat.digitChar k ≠ '#' := by
  interval_cases k <;> decide

/-- The decimal numeral of an integer does not begin with the mark `#`. -/
theorem toString_int_ne_mark (n : Int) (l : List Char) : (toString n).data ≠ '#' :: l := by
  intro h
  cases n with
  | ofNat m =>
    obtain ⟨k, tl, hk, hd⟩ := repr_head m
    have h1 : (Nat.repr m).data = '#' :: l := h
    rw [hd] at h1
    exact digitChar_ne_mark k hk (List.cons.inj h1).1
  | negSucc m =>
    have h1 : ("-" ++ Nat.repr (m + 1)).data = '#' :: l := h
    rw [String.data_append] at h1
    have := (List.cons.inj h1).1
    exact absurd this (by decide)

theorem tallyRender_injective : Function.Injective tallyRender := by
  intro x y h
  unfold tallyRender at h
  have h1 := congrArg String.data h
  simp only [List.cons.injEq, true_and] at h1
  have h2 := congrArg List.length h1
  simp only [List.length_replicate] at h2
  exact Encodable.encode_injective h2

/-- With `tallyRender` for the numbers outside the decimal range, different
numbers are rendered differently, as the engine does. -/
theorem numberToString_tallyRender_injective :
    Function.Injective (numberToString tallyRender) := by
  intro x y h
  unfold numberToString at h
  split_ifs at h with hx hy hy
  · have hnum := toString_int_injective _ _ h
    exact Rat.ext hnum (by rw [hx.1, hy.1])
  · exact absurd (congrArg String.data h) (toString_int_ne_mark _ _)
  · exact absurd (congrArg String.data h.symm) (toString_int_ne_mark _ _)
  · exact tallyRender_injective h

theorem string_append_left_cancel (a x y : String) (h : a ++ x = a ++ y) : x = y := by
  have hd := congrArg String.data h
  rw [String.data_append, String.data_append] at hd
  exact String.ext (List.append_cancel_left hd)

theorem string_append_right_cancel (x y a : String) (h : x ++ a = y ++ a) : x = y := by
  have hd := congrArg String.data h
  rw [String.data_append, String.data_append] at hd
  exact String.ext (List.append_cancel_right hd)

theorem calculateHash_eq_hashInput (sha256 : String → String) (render : ℚ → String) (i : Int)
    (p : String) (t : ℚ) (d : String) :
    calculateHash sha256 render i p t d = sha256 (hashInput render i p t d) := rfl

theorem chainStep_replaceChain (sha256 : String → String) (render : ℚ → String)
    (s : Node) (C : List Block) :
    ChainStep sha256 render s (replaceChain sha256 render s C) := by
  by_cases h : isValidChain sha256 render C = true ∧ C.length > s.blockchain.length
  · rw [replaceChain_valid_longer sha256 render s C h]
    exact Or.inr (Or.inr h)
  · rw [replaceChain_rejected sha256 render s C h]
    exact Or.inl rfl

theorem chainStep_addBlock (sha256 : String → String) (render : ℚ → String)
    (s s1 : Node) (b : Block)
    (h : addBlock sha256 render s b = .ok s1) : ChainStep sha256 render s s1 := by
  unfold addBlock at h
  cases htip : getLatestBlock s with
  | none => simp [htip] at h
  | some tip =>
    simp only [htip] at h
    by_cases hv : isValidNewBlock sha256 render b tip = true
    · simp only [hv, if_true, Except.ok.injEq] at h
      subst h
      have := ((isValidNewBlock_eq_true sha256 render _ _).mp hv).1
      exact Or.inr (Or.inl ⟨b, tip, htip, Or.inr this, rfl⟩)
    · rw [if_neg hv] at h
      injection h with h
      subst h
      exact Or.inl rfl

theorem chainStep_mineBlock (sha256 : String → String) (render : ℚ → String)
    (s s1 : Node) (d : String) (t : ℚ)
    (h : mineBlock sha256 render s d t = .ok s1) : ChainStep sha256 render s s1 := by
  by_cases hc : s.blockchain = []
  · have hnone : getLatestBlock s = none := by simp [getLatestBlock, hc]
    simp [mineBlock, generateNextBlock, hnone] at h
  · have hgen := generateNextBlock_eq sha256 render s d t hc
    have hv := generateNextBlock_isValid sha256 render s d t _ hc hgen
    rw [mineBlock_eq sha256 render s d t _ hc hgen] at h
    injection h with h
    subst h
    have := ((isValidNewBlock_eq_true sha256 render _ _).mp hv).1
    exact Or.inr (Or.inl ⟨_, _, getLatestBlock_eq_getLast s hc, Or.inr this, rfl⟩)

theorem chainStep_handleBlockchainResponse (sha256 : String → String) (render : ℚ → String)
    (s s1 : Node)
    (m : Message) (h : handleBlockchainResponse sha256 render s m = .ok s1) :
    ChainStep sha256 render s s1 := by
  obtain ⟨t, data⟩ := m
  cases data with
  | none => simp [handleBlockchainResponse] at h
  | some blocks =>
    cases hr : (sortByIndex blocks).getLast? with
    | none => simp [handleBlockchainResponse, hr] at h
    | some received =>
      cases hh : getLatestBlock s with
      | none => simp [handleBlockchainResponse, hr, hh] at h
      | some held =>
        rw [handleBlockchainResponse_eq sha256 render s t blocks received held hr hh] at h
        split_ifs at h with h1 h2 h3 <;> injection h with h <;> subst h
        · exact Or.inr (Or.inl ⟨received, held, hh, Or.inl h1, rfl⟩)
        · exact Or.inl rfl
        · exact chainStep_replaceChain sha256 render s _
        · exact Or.inl rfl

theorem chainStep_initMessageHandler (sha256 : String → String) (render : ℚ → String)
    (s s1 : Node) (ws : Socket)
    (m : Message) (h : initMessageHandler sha256 render s ws m = .ok s1) :
    ChainStep sha256 render s s1 := by
  unfold initMessageHandler at h
  split_ifs at h
  · injection h with h; subst h; exact Or.inl rfl
  · injection h with h; subst h; exact Or.inl rfl
  · exact chainStep_handleBlockchainResponse sha256 render s s1 m h
  · injection h with h; subst h; exact Or.inl rfl

/-- Every operation relates the chain before and after in one of the three
ways of `ChainStep`. -/
theorem chainStep_after (sha256 : String → String) (render : ℚ → String)
    (s : Node) (op : Operation) :
    ChainStep sha256 render s (after sha256 render s op) := by
  unfold after
  cases hp : perform sha256 render s op with
  | error e => exact Or.inl rfl
  | ok s1 =>
    simp only
    cases op with
    | mine d t => exact chainStep_mineBlock sha256 render s s1 d t hp
    | add b => exact chainStep_addBlock sha256 render s s1 b hp
    | replace C =>
      simp only [perform, Except.ok.injEq] at hp
      subst hp
      exact chainStep_replaceChain sha256 render s C
    | message ws m => exact chainStep_initMessageHandler sha256 render s s1 ws m hp
    | connect ws =>
      simp only [perform, Except.ok.injEq] at hp
      subst hp
      exact Or.inl rfl
    | close ws =>
      simp only [perform, Except.ok.injEq] at hp
      subst hp
      exact Or.inl rfl

/-- The chain of a reachable node starts with the genesis block. -/
theorem reachable_head (sha256 : String → String) (render : ℚ → String)
    (s : Node) (h : Reachable sha256 render s) :
    s.blockchain.head? = some getGenesisBlock := by
  induction h with
  | init => rfl
  | step s op _ ih =>
    rcases chainStep_after sha256 render s op with h1 | ⟨b, tip, _, _, h2⟩ | ⟨h3, _⟩
    · rw [h1]; exact ih
    · rw [h2]
      cases hs : s.blockchain with
      | nil => rw [hs] at ih; simp at ih
      | cons a l => rw [hs] at ih; simpa using ih
    · exact ((isValidChain_eq_true_chain sha256 render _).mp h3).1

/-- Neighbouring blocks related by `indexStep` have non-decreasing indices. -/
theorem indexStep_le (a b : Block) (h : indexStep a b) : indexLe a b := by
  unfold indexLe
  rcases h with h | h
  · exact le_of_lt h
  · rw [h]; exact le_jsPlusOne _

/-- Where the earlier index lies in the range of exact sums, `indexStep` makes
the later index strictly greater. -/
theorem indexStep_lt (a b : Block) (h : indexStep a b) (h1 : -9007199254740992 ≤ a.index)
    (h2 : a.index < 9007199254740992) : a.index < b.index := by
  rcases h with h | h
  · exact h
  · rw [h, jsPlusOne_safe _ h1 h2]; omega

/-- A chain accepted by `isValidChain` has neighbours related by `indexStep`. -/
theorem isValidChain_indexStep (sha256 : String → String) (render : ℚ → String)
    (C : List Block) (hv : isValidChain sha256 render C = true) : List.Chain' indexStep C := by
  rw [isValidChain_eq_true_chain] at hv
  refine List.Chain'.imp ?_ hv.2
  intro a b hab
  exact Or.inr ((isValidNewBlock_eq_true sha256 render _ _).mp hab).1

/-- In the chain of a reachable node neighbouring blocks are related by
`indexStep`. -/
theorem reachable_indexStep (sha256 : String → String) (render : ℚ → String) (s : Node)
    (h : Reachable sha256 render s) : List.Chain' indexStep s.blockchain := by
  induction h with
  | init => exact List.chain'_singleton _
  | step s op _ ih =>
    rcases chainStep_after sha256 render s op with h1 | ⟨b, tip, htip, hidx, h2⟩ | ⟨h3, _⟩
    · rw [h1]; exact ih
    · rw [h2]
      refine List.chain'_append.mpr ⟨ih, List.chain'_singleton _, ?_⟩
      intro x hx y hy
      unfold getLatestBlock at htip
      rw [htip] at hx
      simp only [List.head?_cons, Option.mem_def, Option.some.injEq] at hx hy
      subst hx hy
      exact hidx
    · exact isValidChain_indexStep sha256 render _ h3

/-- The chain of a reachable node has non-decreasing indices. -/
theorem reachable_pairwise_le (sha256 : String → String) (render : ℚ → String) (s : Node)
    (h : Reachable sha256 render s) : s.blockchain.Pairwise indexLe :=
  List.chain'_iff_pairwise.mp
    ((reachable_indexStep sha256 render s h).imp (fun a b hab => indexStep_le a b hab))

/-- In a list of blocks with non-decreasing indices no block has an index above
that of the last block. -/
theorem index_le_getLast (l : List Block) (hs : l.Pairwise indexLe) (hne : l ≠ []) :
    ∀ a ∈ l, a.index ≤ (l.getLast hne).index := by
  intro a ha
  rw [← List.dropLast_append_getLast hne] at ha hs
  rcases List.mem_append.mp ha with h1 | h1
  · exact (List.pairwise_append.mp hs).2.2 a h1 _ (List.mem_singleton.mpr rfl)
  · rw [List.mem_singleton.mp h1]

/-- In a list of blocks whose neighbours are related by `indexStep`, whose
first index is `0` and whose indices all stay below `2^53`, the indices are
strictly increasing. -/
theorem chain_indexLt_of_small (l : List Block) (hc : List.Chain' indexStep l)
    (h0 : ∀ h : 0 < l.length, (l.get ⟨0, h⟩).index = 0)
    (hsmall : ∀ a ∈ l, a.index < 9007199254740992) : l.Pairwise indexLt := by
  have hle : l.Pairwise indexLe :=
    List.chain'_iff_pairwise.mp (hc.imp (fun a b hab => indexStep_le a b hab))
  refine List.chain'_iff_pairwise.mp (List.chain'_iff_get.mpr ?_)
  intro i hi
  have hstep := List.chain'_iff_get.mp hc i hi
  have hi0 : i < l.length := by omega
  have hnonneg : 0 ≤ (l.get ⟨i, hi0⟩).index := by
    rcases Nat.eq_zero_or_pos i with hz | hp
    · subst hz
      rw [h0 hi0]
    · have := List.pairwise_iff_get.mp hle ⟨0, by omega⟩ ⟨i, hi0⟩ (by simpa using hp)
      unfold indexLe at this
      rw [h0 (by omega)] at this
      exact this
  exact indexStep_lt _ _ hstep (by omega) (hsmall _ (List.get_mem _ _ _))

/-- In a list of blocks with strictly increasing indices whose first index is
`0`, the block at position `i` has an index of at least `i`. -/
theorem index_ge_position (l : List Block) (hs : l.Pairwise indexLt)
    (h0 : ∀ h : 0 < l.length, (l.get ⟨0, h⟩).index = 0) :
    ∀ (i : Nat) (h : i < l.length), (i : Int) ≤ (l.get ⟨i, h⟩).index := by
  intro i
  induction i with
  | zero => intro h; rw [h0 h]; rfl
  | succ n ih =>
    intro h
    have h1 := ih (by omega)
    have h2 : indexLt (l.get ⟨n, by omega⟩) (l.get ⟨n + 1, h⟩) :=
      List.pairwise_iff_get.mp hs ⟨n, by omega⟩ ⟨n + 1, h⟩ (by simp)
    unfold indexLt at h2
    push_cast
    omega

/-- For a registered connection `closeConnection` removes its first occurrence
and keeps the other connections in order. -/
theorem closeConnection_registered (s : Node) (ws : Socket) (h : ws ∈ s.sockets) :
    (closeConnection s ws).sockets = s.sockets.erase ws := by
  have hlt : s.sockets.indexOf ws < s.sockets.length := List.indexOf_lt_length.mpr h
  simp only [closeConnection, jsIndexOf, h, if_true, jsSplice]
  have h1 : ¬ ((s.sockets.indexOf ws : Int) < 0) := by omega
  have h2 : (min (s.sockets.indexOf ws : Int) (s.sockets.length : Int)).toNat
      = s.sockets.indexOf ws := by
    rw [min_eq_left (by omega)]
    simp
  rw [if_neg h1, h2, ← List.eraseIdx_eq_take_drop_succ, List.eraseIdx_indexOf_eq_erase]

/-! ## The claims -/

/-- C1: `isValidNewBlock(candidate, predecessor)` is `true` exactly when the
candidate's index is `predecessor.index + 1` (the sum as the program computes
it, in double precision), its `previousHash` is the predecessor's hash and its
recomputed hash is its stored hash; it is `false` in every other case.  The
function is total: it returns a boolean on every pair of blocks.  Where the
predecessor's index lies between `-2^53` and `2^53 - 1` the sum is the exact
one. -/
theorem isValidNewBlock_iff (sha256 : String → String) (render : ℚ → String)
    (candidate predecessor : Block) :
    (isValidNewBlock sha256 render candidate predecessor = true ↔
      candidate.index = jsPlusOne predecessor.index ∧
      candidate.previousHash = predecessor.hash ∧
      calculateHashForBlock sha256 render candidate = candidate.hash) ∧
    (isValidNewBlock sha256 render candidate predecessor = false ↔
      ¬ (candidate.index = jsPlusOne predecessor.index ∧
         candidate.previousHash = predecessor.hash ∧
         calculateHashForBlock sha256 render candidate = candidate.hash)) ∧
    ((-9007199254740992 ≤ predecessor.index ∧ predecessor.index < 9007199254740992) →
      (isValidNewBlock sha256 render candidate predecessor = true ↔
        candidate.index = predecessor.index + 1 ∧
        candidate.previousHash = predecessor.hash ∧
        calculateHashForBlock sha256 render candidate = candidate.hash)) := by
  have h := isValidNewBlock_eq_true sha256 render candidate predecessor
  refine ⟨h, ?_, ?_⟩
  · rw [← h]
    cases isValidNewBlock sha256 render candidate predecessor <;> simp
  · intro hr
    rw [h, jsPlusOne_safe _ hr.1 hr.2]

/-- C2 (counterexample): `relaidGenesis` has the five field values of the
genesis block, yet the one-block list that holds it is rejected by
`isValidChain`: its keys are not laid out as the constructor lays them, so its
`JSON.stringify` text is not that of the genesis block. -/
theorem isValidChain_rejects_relaid_genesis :
    relaidGenesis.index = getGenesisBlock.index ∧
    relaidGenesis.previousHash = getGenesisBlock.previousHash ∧
    relaidGenesis.timestamp = getGenesisBlock.timestamp ∧
    relaidGenesis.data = getGenesisBlock.data ∧
    relaidGenesis.hash = getGenesisBlock.hash ∧
    (∀ (sha256 : String → String) (render : ℚ → String),
      isValidChain sha256 render [relaidGenesis] = false) :=
  ⟨rfl, rfl, rfl, rfl, rfl, fun _ _ => rfl⟩

/-- C2 (amended): `isValidChain(C)` is `true` exactly when `C` is non-empty, its
first block has the `JSON.stringify` text of the genesis block (the five
genesis values under the constructor's key layout, which is equality with
`getGenesisBlock`), and every later block is a valid new block for the block
before it (so its index is the double-precision sum of the index before and
`1`, its `previousHash` is the hash of the block before, and its recomputed
hash is its stored hash).  The empty list and every list whose first block is
not the genesis block give `false`. -/
theorem isValidChain_iff (sha256 : String → String) (render : ℚ → String) (C : List Block) :
    (isValidChain sha256 render C = true ↔
      C ≠ [] ∧ C[0]? = some getGenesisBlock ∧
      ∀ (i : Nat) (h : i + 1 < C.length),
        isValidNewBlock sha256 render (C.get ⟨i + 1, h⟩) (C.get ⟨i, Nat.lt_of_succ_lt h⟩) = true) ∧
    (isValidChain sha256 render C = true →
      ∀ (i : Nat) (h : i + 1 < C.length),
        (C.get ⟨i + 1, h⟩).index = jsPlusOne (C.get ⟨i, Nat.lt_of_succ_lt h⟩).index ∧
        (C.get ⟨i + 1, h⟩).previousHash = (C.get ⟨i, Nat.lt_of_succ_lt h⟩).hash ∧
        calculateHashForBlock sha256 render (C.get ⟨i + 1, h⟩) = (C.get ⟨i + 1, h⟩).hash) ∧
    isValidChain sha256 render [] = false ∧
    (C[0]? ≠ some getGenesisBlock → isValidChain sha256 render C = false) := by
  have main : isValidChain sha256 render C = true ↔
      C ≠ [] ∧ C[0]? = some getGenesisBlock ∧
      ∀ (i : Nat) (h : i + 1 < C.length),
        isValidNewBlock sha256 render (C.get ⟨i + 1, h⟩) (C.get ⟨i, Nat.lt_of_succ_lt h⟩) = true := by
    rw [isValidChain_eq_true_chain, List.chain'_iff_get]
    constructor
    · rintro ⟨hh, hc⟩
      refine ⟨?_, ?_, ?_⟩
      · rintro rfl; simp at hh
      · cases C with
        | nil => simp at hh
        | cons a l => simpa using hh
      · intro i h
        exact hc i (by omega)
    · rintro ⟨_, hh, hc⟩
      refine ⟨?_, ?_⟩
      · cases C with
        | nil => simp at hh
        | cons a l => simpa using hh
      · intro i h
        exact hc i (by omega)
  refine ⟨main, ?_, by simp [isValidChain], ?_⟩
  · intro hv i h
    exact (isValidNewBlock_eq_true sha256 render _ _).mp ((main.mp hv).2.2 i h)
  · intro hne
    cases hC : isValidChain sha256 render C with
    | false => rfl
    | true => exact absurd (main.mp hC).2.1 hne

/-- C3: `replaceChain(C)` installs `C` as the canonical chain (and then
broadcasts the latest-block response of the new chain to every peer) when
`isValidChain(C)` holds and `C` is longer than the current chain; when `C` is
invalid, of equal length or shorter, the node state after the call is the
state before it: same chain, nothing sent.  The chain is changed by the call
exactly in the first case. -/
theorem replaceChain_spec (sha256 : String → String) (render : ℚ → String)
    (s : Node) (C : List Block) :
    ((isValidChain sha256 render C = true ∧ C.length > s.blockchain.length) →
      (replaceChain sha256 render s C).blockchain = C ∧
      (replaceChain sha256 render s C).sockets = s.sockets ∧
      (replaceChain sha256 render s C).sent =
        s.sent ++ s.sockets.map
          (fun ws => (ws, { type := RESPONSE_BLOCKCHAIN, data := some C.getLast?.toList }))) ∧
    (isValidChain sha256 render C = false → replaceChain sha256 render s C = s) ∧
    (C.length = s.blockchain.length → replaceChain sha256 render s C = s) ∧
    (C.length < s.blockchain.length → replaceChain sha256 render s C = s) ∧
    ((replaceChain sha256 render s C).blockchain ≠ s.blockchain ↔
      (isValidChain sha256 render C = true ∧ C.length > s.blockchain.length)) := by
  have hyes := replaceChain_valid_longer sha256 render s C
  have hno := replaceChain_rejected sha256 render s C
  refine ⟨?_, ?_, ?_, ?_, ?_⟩
  · intro h; rw [hyes h]; exact ⟨rfl, rfl, rfl⟩
  · intro h; exact hno (by simp [h])
  · intro h; exact hno (by omega)
  · intro h; exact hno (by omega)
  · constructor
    · intro h
      by_contra hc
      exact h (by rw [hno hc])
    · intro h hEq
      rw [hyes h] at hEq
      have := h.2
      simp only at hEq
      rw [hEq] at this
      exact lt_irrefl _ this

/-- C4: on a non-empty chain `c` with last block `tip`, `addBlock(b)` returns
normally; when `isValidNewBlock(b, tip)` is `true` the chain afterwards is
`c ++ [b]` (one longer, last block `b`, the earlier blocks as before) and when
it is `false` the node state is unchanged. -/
theorem addBlock_spec (sha256 : String → String) (render : ℚ → String) (s : Node) (b : Block)
    (hc : s.blockchain ≠ []) :
    (isValidNewBlock sha256 render b (s.blockchain.getLast hc) = true →
      ∃ s', addBlock sha256 render s b = .ok s' ∧
        s'.blockchain = s.blockchain ++ [b] ∧
        s'.blockchain.length = s.blockchain.length + 1 ∧
        getLatestBlock s' = some b ∧
        s'.blockchain.take s.blockchain.length = s.blockchain ∧
        s'.sockets = s.sockets ∧ s'.sent = s.sent) ∧
    (isValidNewBlock sha256 render b (s.blockchain.getLast hc) = false →
      addBlock sha256 render s b = .ok s) := by
  constructor
  · intro hv
    refine ⟨{ s with blockchain := s.blockchain ++ [b] }, ?_, rfl, by simp, ?_, by simp, rfl, rfl⟩
    · simp [addBlock, getLatestBlock_eq_getLast s hc, hv]
    · simp [getLatestBlock]
  · intro hv
    simp [addBlock, getLatestBlock_eq_getLast s hc, hv]

/-- Witness for C4: the successor of the genesis block (identity digest) is a
valid new block for the genesis-only chain of `peerNode` and is appended to it,
while `gapBlock` is not valid there and leaves the node as it was. -/
theorem addBlock_spec_witness :
    (∃ s', addBlock id sampleRender peerNode (sampleNext getGenesisBlock "a") = .ok s' ∧
      s'.blockchain = peerNode.blockchain ++ [sampleNext getGenesisBlock "a"] ∧
      s'.blockchain.length = peerNode.blockchain.length + 1 ∧
      getLatestBlock s' = some (sampleNext getGenesisBlock "a") ∧
      s'.blockchain.take peerNode.blockchain.length = peerNode.blockchain ∧
      s'.sockets = peerNode.sockets ∧ s'.sent = peerNode.sent) ∧
    addBlock id sampleRender peerNode gapBlock = .ok peerNode :=
  ⟨(addBlock_spec id sampleRender peerNode (sampleNext getGenesisBlock "a") (by decide)).1 (by decide),
   (addBlock_spec id sampleRender peerNode gapBlock (by decide)).2 (by decide)⟩

/-- C5: on a non-empty chain with last block `tip`, for every payload `d` and
every clock reading (any number, fractional ones included),
`generateNextBlock(d)` returns a block `b` with `isValidNewBlock(b, tip)`,
`b.data = d`, `b.index = tip.index + 1` (the sum as the program computes it,
in double precision; the exact sum where `tip.index` lies between `-2^53` and
`2^53 - 1`) and `b.previousHash = tip.hash`. -/
theorem generateNextBlock_valid (sha256 : String → String) (render : ℚ → String) (s : Node)
    (d : String) (nextTimestamp : ℚ) (hc : s.blockchain ≠ []) :
    ∃ b, generateNextBlock sha256 render s d nextTimestamp = .ok b ∧
      isValidNewBlock sha256 render b (s.blockchain.getLast hc) = true ∧
      b.data = d ∧
      b.index = jsPlusOne (s.blockchain.getLast hc).index ∧
      ((-9007199254740992 ≤ (s.blockchain.getLast hc).index ∧
          (s.blockchain.getLast hc).index < 9007199254740992) →
        b.index = (s.blockchain.getLast hc).index + 1) ∧
      b.previousHash = (s.blockchain.getLast hc).hash ∧
      b.timestamp = nextTimestamp := by
  refine ⟨_, generateNextBlock_eq sha256 render s d nextTimestamp hc, ?_, rfl, rfl, ?_, rfl, rfl⟩
  · rw [isValidNewBlock_eq_true]
    exact ⟨rfl, rfl, rfl⟩
  · intro hr
    exact jsPlusOne_safe _ hr.1 hr.2

/-- Witness for C5: mining the payload `"a"` at the clock reading
`1465154705.123` on the chain of `hugeNode`, whose last block has index
`2^53`. -/
theorem generateNextBlock_valid_witness :
    ∃ b, generateNextBlock id sampleRender hugeNode "a" (1465154705123 / 1000) = .ok b ∧
      isValidNewBlock id sampleRender b (hugeNode.blockchain.getLast (by decide)) = true ∧
      b.data = "a" ∧
      b.index = jsPlusOne (hugeNode.blockchain.getLast (by decide)).index ∧
      ((-9007199254740992 ≤ (hugeNode.blockchain.getLast (by decide)).index ∧
          (hugeNode.blockchain.getLast (by decide)).index < 9007199254740992) →
        b.index = (hugeNode.blockchain.getLast (by decide)).index + 1) ∧
      b.previousHash = (hugeNode.blockchain.getLast (by decide)).hash ∧
      b.timestamp = 1465154705123 / 1000 :=
  generateNextBlock_valid id sampleRender hugeNode "a" (1465154705123 / 1000) (by decide)

/-- C6 (evaluation at the failing input): the genesis-only chain is accepted by
`isValidChain`; after the node handles a `RESPONSE_BLOCKCHAIN` message carrying
the single block `gapBlock`, its chain is `[genesis, gapBlock]`, which
`isValidChain` rejects, for every digest function. -/
theorem handleBlockchainResponse_admits_invalid_block :
    ∀ (sha256 : String → String) (render : ℚ → String),
      isValidChain sha256 render peerNode.blockchain = true ∧
      ∃ s', handleBlockchainResponse sha256 render peerNode
              { type := RESPONSE_BLOCKCHAIN, data := some [gapBlock] } = .ok s' ∧
        s'.blockchain = [getGenesisBlock, gapBlock] ∧
        isValidNewBlock sha256 render gapBlock getGenesisBlock = false ∧
        isValidChain sha256 render s'.blockchain = false := by
  intro sha256 render
  refine ⟨rfl, _, rfl, rfl, rfl, rfl⟩

/-- C7 (counterexample): `staleLinkedBlock` has the hash of the local latest
block as its `previousHash`, yet handling the response that carries it leaves
the chain of `peerNode` as it was, not extended by the block. -/
theorem handleBlockchainResponse_linked_not_appended :
    getLatestBlock peerNode = some getGenesisBlock ∧
    staleLinkedBlock.previousHash = getGenesisBlock.hash ∧
    (∀ (sha256 : String → String) (render : ℚ → String),
      handleBlockchainResponse sha256 render peerNode
        { type := RESPONSE_BLOCKCHAIN, data := some [staleLinkedBlock] } = .ok peerNode) ∧
    peerNode.blockchain ≠ peerNode.blockchain ++ [staleLinkedBlock] := by
  refine ⟨rfl, rfl, fun _ _ => rfl, by decide⟩

/-- C7 (amended): on a non-empty chain `c` with last block `tip`, a
`RESPONSE_BLOCKCHAIN` message carrying exactly one block `b` that is a valid
new block for `tip` (so `b.previousHash = tip.hash`) and whose index is greater
than the index of `tip` leaves the chain equal to `c ++ [b]`: its length is
`len(c) + 1`, its last block is `b`, and the latest-block response is sent to
every peer. -/
theorem handleBlockchainResponse_appends_valid (sha256 : String → String)
    (render : ℚ → String) (s : Node) (b : Block) (hc : s.blockchain ≠ [])
    (hv : isValidNewBlock sha256 render b (s.blockchain.getLast hc) = true)
    (hidx : b.index > (s.blockchain.getLast hc).index) :
    ∃ s', handleBlockchainResponse sha256 render s
            { type := RESPONSE_BLOCKCHAIN, data := some [b] } = .ok s' ∧
      s'.blockchain = s.blockchain ++ [b] ∧
      s'.blockchain.length = s.blockchain.length + 1 ∧
      getLatestBlock s' = some b ∧
      s'.sockets = s.sockets ∧
      s'.sent = s.sent ++ s.sockets.map
        (fun ws => (ws, { type := RESPONSE_BLOCKCHAIN, data := some [b] })) := by
  obtain ⟨_, h2, _⟩ := (isValidNewBlock_eq_true sha256 render _ _).mp hv
  refine ⟨_, handleBlockchainResponse_fastPath sha256 render s _ b hc hidx h2, rfl, by simp,
    by simp [getLatestBlock], rfl, rfl⟩

/-- Witness for C7 (amended): the successor of the genesis block, hashed with
the identity digest, delivered to `peerNode`. -/
theorem handleBlockchainResponse_appends_valid_witness :
    ∃ s', handleBlockchainResponse id sampleRender peerNode
            { type := RESPONSE_BLOCKCHAIN,
              data := some [sampleNext getGenesisBlock "a"] } = .ok s' ∧
      s'.blockchain = peerNode.blockchain ++ [sampleNext getGenesisBlock "a"] ∧
      s'.blockchain.length = peerNode.blockchain.length + 1 ∧
      getLatestBlock s' = some (sampleNext getGenesisBlock "a") ∧
      s'.sockets = peerNode.sockets ∧
      s'.sent = peerNode.sent ++ peerNode.sockets.map
        (fun ws => (ws, { type := RESPONSE_BLOCKCHAIN,
                          data := some [sampleNext getGenesisBlock "a"] })) :=
  handleBlockchainResponse_appends_valid id sampleRender peerNode
    (sampleNext getGenesisBlock "a") (by decide) (by decide) (by decide)

/-- C8 (counterexample): `staleStrayBlock` does not link to the local latest
block, and handling the response that carries it sends nothing at all: the
node state, message log included, is unchanged although two peers are
registered, so no `QUERY_ALL` goes out. -/
theorem handleBlockchainResponse_stray_no_query :
    getLatestBlock peerNode = some getGenesisBlock ∧
    staleStrayBlock.previousHash ≠ getGenesisBlock.hash ∧
    peerNode.sockets = [1, 2] ∧
    (∀ (sha256 : String → String) (render : ℚ → String),
      handleBlockchainResponse sha256 render peerNode
        { type := RESPONSE_BLOCKCHAIN, data := some [staleStrayBlock] } = .ok peerNode) ∧
    peerNode.sent ≠ peerNode.sent ++ peerNode.sockets.map (fun ws => (ws, queryAllMsg)) := by
  refine ⟨rfl, by decide, rfl, fun _ _ => rfl, by decide⟩

/-- C8 (amended): on a non-empty chain with last block `tip`, a
`RESPONSE_BLOCKCHAIN` message carrying exactly one block `b` whose
`previousHash` differs from `tip.hash` and whose index is greater than
`tip.index` leaves the chain and the peer registry unchanged, and the only
messages sent are one `QUERY_ALL` to every registered peer. -/
theorem handleBlockchainResponse_stray_queries_all (sha256 : String → String) (render : ℚ → String)
    (s : Node)
    (b : Block) (hc : s.blockchain ≠ [])
    (hlink : b.previousHash ≠ (s.blockchain.getLast hc).hash)
    (hidx : b.index > (s.blockchain.getLast hc).index) :
    handleBlockchainResponse sha256 render s { type := RESPONSE_BLOCKCHAIN, data := some [b] } =
      .ok { blockchain := s.blockchain, sockets := s.sockets,
            sent := s.sent ++ s.sockets.map (fun ws => (ws, queryAllMsg)) } := by
  rw [handleBlockchainResponse_eq sha256 render s _ [b] b _ rfl (getLatestBlock_eq_getLast s hc),
    if_pos hidx, if_neg (fun h => hlink h.symm), sortByIndex_singleton, List.length_singleton,
    if_pos rfl]

/-- Witness for C8 (amended): `aheadStrayBlock` delivered to `peerNode`. -/
theorem handleBlockchainResponse_stray_queries_all_witness :
    handleBlockchainResponse id sampleRender peerNode
        { type := RESPONSE_BLOCKCHAIN, data := some [aheadStrayBlock] } =
      .ok { blockchain := peerNode.blockchain, sockets := peerNode.sockets,
            sent := peerNode.sent ++ peerNode.sockets.map (fun ws => (ws, queryAllMsg)) } :=
  handleBlockchainResponse_stray_queries_all id sampleRender peerNode aheadStrayBlock (by decide)
    (by decide) (by decide)

/-- C9: on a non-empty chain with last block `tip`, a `RESPONSE_BLOCKCHAIN`
message with a non-empty block list in which no block has an index above
`tip.index` (so the highest-index block has index `≤ tip.index`) is a no-op:
the handler returns normally with the node state, chain and message log
included, unchanged, whatever the blocks' hashes, links and number. -/
theorem handleBlockchainResponse_noop (sha256 : String → String) (render : ℚ → String) (s : Node)
    (blocks : List Block) (hc : s.blockchain ≠ []) (hne : blocks ≠ [])
    (hidx : ∀ b ∈ blocks, b.index ≤ (s.blockchain.getLast hc).index) :
    handleBlockchainResponse sha256 render s { type := RESPONSE_BLOCKCHAIN, data := some blocks } =
      .ok s := by
  have hs := sortByIndex_ne_nil blocks hne
  have hr : (sortByIndex blocks).getLast? = some ((sortByIndex blocks).getLast hs) :=
    List.getLast?_eq_getLast _ hs
  have hmem : (sortByIndex blocks).getLast hs ∈ blocks :=
    (List.mem_insertionSort indexLe).mp (List.getLast_mem hs)
  rw [handleBlockchainResponse_eq sha256 render s _ blocks _ _ hr (getLatestBlock_eq_getLast s hc),
    if_neg (not_lt.mpr (hidx _ hmem))]

/-- Witness for C9: the two stale blocks delivered together to `peerNode`. -/
theorem handleBlockchainResponse_noop_witness :
    handleBlockchainResponse id sampleRender peerNode
        { type := RESPONSE_BLOCKCHAIN, data := some [staleStrayBlock, staleLinkedBlock] } =
      .ok peerNode :=
  handleBlockchainResponse_noop id sampleRender peerNode [staleStrayBlock, staleLinkedBlock] (by decide)
    (by decide) (by decide)

/-- C10: with a collision-free (injective) digest, for a node whose chain is
accepted by `isValidChain` and has length 3 and a candidate chain accepted by
`isValidChain`: if the candidate has length 5, handling
`RESPONSE_BLOCKCHAIN(candidate)` returns normally with the chain equal to the
candidate, after sending the latest-block response that carries the
candidate's last block to every peer; if the candidate has length 2, the node
state is unchanged. -/
theorem handleBlockchainResponse_longer_valid_chain (sha256 : String → String) (render : ℚ → String)
    (s : Node)
    (candidate : List Block)
    (hinj : Function.Injective sha256)
    (hs : isValidChain sha256 render s.blockchain = true) (hs3 : s.blockchain.length = 3)
    (hcand : isValidChain sha256 render candidate = true) :
    (candidate.length = 5 →
      ∃ tip, candidate.getLast? = some tip ∧
        handleBlockchainResponse sha256 render s
            { type := RESPONSE_BLOCKCHAIN, data := some candidate } =
          .ok { blockchain := candidate, sockets := s.sockets,
                sent := s.sent ++ s.sockets.map
                  (fun ws => (ws, { type := RESPONSE_BLOCKCHAIN, data := some [tip] })) }) ∧
    (candidate.length = 2 →
      handleBlockchainResponse sha256 render s
          { type := RESPONSE_BLOCKCHAIN, data := some candidate } = .ok s) := by
  obtain ⟨held, hheld, hheldi, hheldh⟩ := isValidChain_getLast sha256 render s.blockchain 2 hs hs3 (by norm_num)
  have hsorted := isValidChain_sortByIndex sha256 render candidate hcand
  constructor
  · intro h5
    obtain ⟨tip, htip, htipi, htiph⟩ := isValidChain_getLast sha256 render candidate 4 hcand h5 (by norm_num)
    have h3 : (3 : Nat) < candidate.length := by omega
    have hthird : (candidate.get ⟨3, h3⟩).index = 3 := by
      have := isValidChain_index sha256 render candidate hcand 3 h3 (by norm_num)
      simpa using this
    have hthirdh :
        calculateHashForBlock sha256 render (candidate.get ⟨3, h3⟩) = (candidate.get ⟨3, h3⟩).hash := by
      have hv := hcand
      rw [isValidChain_eq_true_chain, List.chain'_iff_get] at hv
      exact ((isValidNewBlock_eq_true sha256 render _ _).mp (hv.2 2 (by omega))).2.2
    have hnolink : held.hash ≠ tip.previousHash := by
      have e1 := (hheldh (by omega) (by norm_num)).1
      have e2 := (htiph (by omega) (by norm_num)).2
      rw [← e1, e2]
      show _ ≠ (candidate.get ⟨3, h3⟩).hash
      rw [← hthirdh]
      exact calculateHashForBlock_ne sha256 render hinj _ _ (by simpa using hheldi) hthird
    refine ⟨tip, htip, ?_⟩
    have hr : (sortByIndex candidate).getLast? = some tip := by rw [hsorted]; exact htip
    rw [handleBlockchainResponse_eq sha256 render s _ candidate tip held hr hheld,
      if_pos (by rw [htipi, hheldi]; norm_num), hsorted, if_neg hnolink, if_neg (by omega),
      replaceChain_valid_longer sha256 render s candidate ⟨hcand, by omega⟩, htip]
    rfl
  · intro h2
    obtain ⟨tip, htip, htipi, -⟩ := isValidChain_getLast sha256 render candidate 1 hcand h2 (by norm_num)
    have hr : (sortByIndex candidate).getLast? = some tip := by rw [hsorted]; exact htip
    rw [handleBlockchainResponse_eq sha256 render s _ candidate tip held hr hheld,
      if_neg (by rw [htipi, hheldi]; norm_num)]

/-- Witness for C10: the identity function as the (injective) digest, a node
holding `sampleChain3`, and the candidates `sampleChain5` and `sampleChain2`. -/
theorem handleBlockchainResponse_longer_valid_chain_witness :
    (∃ tip, sampleChain5.getLast? = some tip ∧
      handleBlockchainResponse id sampleRender sampleNode3
          { type := RESPONSE_BLOCKCHAIN, data := some sampleChain5 } =
        .ok { blockchain := sampleChain5, sockets := sampleNode3.sockets,
              sent := sampleNode3.sent ++ sampleNode3.sockets.map
                (fun ws => (ws, { type := RESPONSE_BLOCKCHAIN, data := some [tip] })) }) ∧
    handleBlockchainResponse id sampleRender sampleNode3
        { type := RESPONSE_BLOCKCHAIN, data := some sampleChain2 } = .ok sampleNode3 :=
  ⟨(handleBlockchainResponse_longer_valid_chain id sampleRender sampleNode3 sampleChain5
      Function.injective_id (by decide) (by decide) (by decide)).1 (by decide),
   (handleBlockchainResponse_longer_valid_chain id sampleRender sampleNode3 sampleChain2
      Function.injective_id (by decide) (by decide) (by decide)).2 (by decide)⟩

/-- C11 (counterexample): two nodes hold the chain of `hugeNode`, whose last
block has index `2^53` (the chain a node has after a response carrying
`hugeBlock`).  The block `b` that the first mines has index `2^53` again, the
first node appends it, and the second node, handling
`RESPONSE_BLOCKCHAIN([b])`, keeps its chain: `2^53 > 2^53` is false. -/
theorem mined_block_not_propagated :
    (∀ (sha256 : String → String) (render : ℚ → String),
      handleBlockchainResponse sha256 render peerNode
        { type := RESPONSE_BLOCKCHAIN, data := some [hugeBlock] } =
        .ok { hugeNode with
              sent := peerNode.sockets.map
                (fun ws => (ws, { type := RESPONSE_BLOCKCHAIN, data := some [hugeBlock] })) }) ∧
    (∀ (sha256 : String → String) (render : ℚ → String),
      ∃ b, generateNextBlock sha256 render hugeNode "a" 0 = .ok b ∧
        b.index = 9007199254740992 ∧
        addBlock sha256 render hugeNode b =
          .ok { hugeNode with blockchain := hugeNode.blockchain ++ [b] } ∧
        handleBlockchainResponse sha256 render hugeNode
          { type := RESPONSE_BLOCKCHAIN, data := some [b] } = .ok hugeNode ∧
        hugeNode.blockchain ≠ hugeNode.blockchain ++ [b]) := by
  refine ⟨fun _ _ => rfl, fun sha256 render => ?_⟩
  have htip : getLatestBlock hugeNode = some hugeBlock := rfl
  have hv : isValidNewBlock sha256 render
      { index := 9007199254740992
        previousHash := hugeBlock.hash
        timestamp := 0
        data := "a"
        hash := calculateHash sha256 render 9007199254740992 hugeBlock.hash 0 "a"
        plainLayout := true } hugeBlock = true := by
    rw [isValidNewBlock_eq_true]
    exact ⟨rfl, rfl, rfl⟩
  refine ⟨{ index := 9007199254740992
            previousHash := hugeBlock.hash
            timestamp := 0
            data := "a"
            hash := calculateHash sha256 render 9007199254740992 hugeBlock.hash 0 "a"
            plainLayout := true }, rfl, rfl, ?_, rfl, by simp⟩
  simp only [addBlock, htip, hv, if_true]

/-- C11 (amended): when two nodes hold the same non-empty chain `c` whose last
block has an index between `-2^53` and `2^53 - 1` (as on two fresh nodes), the
first produces `b = generateNextBlock(d)` and the second handles
`RESPONSE_BLOCKCHAIN([b])`, the second node's chain becomes `c ++ [b]`, which
is the chain of the first node after `addBlock(b)`. -/
theorem mined_block_propagates (sha256 : String → String) (render : ℚ → String)
    (first second : Node) (d : String) (nextTimestamp : ℚ) (hc : first.blockchain ≠ [])
    (hsame : second.blockchain = first.blockchain)
    (hlow : -9007199254740992 ≤ (first.blockchain.getLast hc).index)
    (hhigh : (first.blockchain.getLast hc).index < 9007199254740992) :
    ∃ b first1 second1,
      generateNextBlock sha256 render first d nextTimestamp = .ok b ∧
      handleBlockchainResponse sha256 render second
        { type := RESPONSE_BLOCKCHAIN, data := some [b] } = .ok second1 ∧
      addBlock sha256 render first b = .ok first1 ∧
      second1.blockchain = first.blockchain ++ [b] ∧
      second1.blockchain = first1.blockchain := by
  have hc2 : second.blockchain ≠ [] := by rw [hsame]; exact hc
  have hlast : second.blockchain.getLast hc2 = first.blockchain.getLast hc := by
    simp only [hsame]
  obtain ⟨b, hb⟩ : ∃ b, generateNextBlock sha256 render first d nextTimestamp = .ok b :=
    ⟨_, generateNextBlock_eq sha256 render first d nextTimestamp hc⟩
  have hv := generateNextBlock_isValid sha256 render first d nextTimestamp b hc hb
  obtain ⟨h1, h2, _⟩ := (isValidNewBlock_eq_true sha256 render _ _).mp hv
  rw [jsPlusOne_safe _ hlow hhigh] at h1
  have hidx : b.index > (second.blockchain.getLast hc2).index := by rw [hlast]; omega
  have hlink : b.previousHash = (second.blockchain.getLast hc2).hash := by rw [hlast]; exact h2
  refine ⟨b, { first with blockchain := first.blockchain ++ [b] }, _, hb,
    handleBlockchainResponse_fastPath sha256 render second _ b hc2 hidx hlink, ?_, ?_, ?_⟩
  · simp only [addBlock, getLatestBlock_eq_getLast first hc, hv, if_true]
  · simp only [hsame]
  · simp only [hsame]

/-- Witness for C11 (amended): two nodes holding only the genesis block,
payload `"a"`, clock reading `1465154705.123`. -/
theorem mined_block_propagates_witness :
    ∃ b first1 second1,
      generateNextBlock id sampleRender initialNode "a" (1465154705123 / 1000) = .ok b ∧
      handleBlockchainResponse id sampleRender peerNode
        { type := RESPONSE_BLOCKCHAIN, data := some [b] } = .ok second1 ∧
      addBlock id sampleRender initialNode b = .ok first1 ∧
      second1.blockchain = initialNode.blockchain ++ [b] ∧
      second1.blockchain = first1.blockchain :=
  mined_block_propagates id sampleRender initialNode peerNode "a" (1465154705123 / 1000)
    (by decide) (by decide) (by decide) (by decide)

/-- C12: on a non-empty chain `c` with last block `tip`, for every payload `d`
(and every clock reading, fractional ones included) the mining handler returns
normally and always appends: afterwards the chain is `c ++ [b]` with
`b.data = d`, `b.index = tip.index + 1` (the sum as the program computes it, in
double precision; the exact sum where `tip.index` lies between `-2^53` and
`2^53 - 1`) and `b.previousHash = tip.hash`, and what it sends is one
`RESPONSE_BLOCKCHAIN` message with data `[b]` to every registered peer. -/
theorem mineBlock_appends (sha256 : String → String) (render : ℚ → String) (s : Node)
    (d : String) (nextTimestamp : ℚ) (hc : s.blockchain ≠ []) :
    ∃ b s1, mineBlock sha256 render s d nextTimestamp = .ok s1 ∧
      s1.blockchain = s.blockchain ++ [b] ∧
      b.data = d ∧
      b.index = jsPlusOne (s.blockchain.getLast hc).index ∧
      ((-9007199254740992 ≤ (s.blockchain.getLast hc).index ∧
          (s.blockchain.getLast hc).index < 9007199254740992) →
        b.index = (s.blockchain.getLast hc).index + 1) ∧
      b.previousHash = (s.blockchain.getLast hc).hash ∧
      s1.sockets = s.sockets ∧
      s1.sent = s.sent ++ s.sockets.map
        (fun ws => (ws, { type := RESPONSE_BLOCKCHAIN, data := some [b] })) := by
  have hgen := generateNextBlock_eq sha256 render s d nextTimestamp hc
  exact ⟨_, _, mineBlock_eq sha256 render s d nextTimestamp _ hc hgen, rfl, rfl, rfl,
    fun hr => jsPlusOne_safe _ hr.1 hr.2, rfl, rfl, rfl⟩

/-- Witness for C12: mining the payload `"a"` at the clock reading
`1465154705.123` on `hugeNode`, whose last block has index `2^53`. -/
theorem mineBlock_appends_witness :
    ∃ b s1, mineBlock id sampleRender hugeNode "a" (1465154705123 / 1000) = .ok s1 ∧
      s1.blockchain = hugeNode.blockchain ++ [b] ∧
      b.data = "a" ∧
      b.index = jsPlusOne (hugeNode.blockchain.getLast (by decide)).index ∧
      ((-9007199254740992 ≤ (hugeNode.blockchain.getLast (by decide)).index ∧
          (hugeNode.blockchain.getLast (by decide)).index < 9007199254740992) →
        b.index = (hugeNode.blockchain.getLast (by decide)).index + 1) ∧
      b.previousHash = (hugeNode.blockchain.getLast (by decide)).hash ∧
      s1.sockets = hugeNode.sockets ∧
      s1.sent = hugeNode.sent ++ hugeNode.sockets.map
        (fun ws => (ws, { type := RESPONSE_BLOCKCHAIN, data := some [b] })) :=
  mineBlock_appends id sampleRender hugeNode "a" (1465154705123 / 1000) (by decide)

/-- C13 (evaluation at the failing input): with the peers `1` and `2`
registered, the first `closeConnection(1)` leaves `[2]`; a second
`closeConnection(1)`, for the connection that is no longer registered, removes
the peer `2`; and `closeConnection(3)` for a connection that never was
registered removes the peer `2` as well. -/
theorem closeConnection_unregistered_removes_last :
    peerNode.sockets = [1, 2] ∧
    (closeConnection peerNode 1).sockets = [2] ∧
    (closeConnection (closeConnection peerNode 1) 1).sockets = [] ∧
    (closeConnection peerNode 3).sockets = [1] := by
  decide

/-- C14 (counterexample): handling a `RESPONSE_BLOCKCHAIN` message with an empty
block list raises a `TypeError`, both in `handleBlockchainResponse` and in the
message handler that calls it. -/
theorem handleBlockchainResponse_empty_raises :
    (∀ (sha256 : String → String) (render : ℚ → String),
      handleBlockchainResponse sha256 render peerNode
        { type := RESPONSE_BLOCKCHAIN, data := some [] } = .error .typeError) ∧
    (∀ (sha256 : String → String) (render : ℚ → String),
      initMessageHandler sha256 render peerNode 1
        { type := RESPONSE_BLOCKCHAIN, data := some [] } = .error .typeError) :=
  ⟨fun _ _ => rfl, fun _ _ => rfl⟩

/-- C14 (amended): for every node state, handling a `RESPONSE_BLOCKCHAIN`
message whose block list is empty raises a `TypeError` (the last element of the
empty list is `undefined`), out of `handleBlockchainResponse` and out of the
message handler; the throw precedes every write, so the node state after the
message is the state before it: the chain is unchanged and nothing is sent. -/
theorem handleBlockchainResponse_empty (sha256 : String → String) (render : ℚ → String)
    (s : Node) (ws : Socket) :
    handleBlockchainResponse sha256 render s { type := RESPONSE_BLOCKCHAIN, data := some [] } =
      .error .typeError ∧
    initMessageHandler sha256 render s ws { type := RESPONSE_BLOCKCHAIN, data := some [] } =
      .error .typeError ∧
    after sha256 render s (.message ws { type := RESPONSE_BLOCKCHAIN, data := some [] }) = s := by
  have h : handleBlockchainResponse sha256 render s { type := RESPONSE_BLOCKCHAIN, data := some [] } =
      .error .typeError := rfl
  have h2 : initMessageHandler sha256 render s ws { type := RESPONSE_BLOCKCHAIN, data := some [] } =
      .error .typeError := by
    unfold initMessageHandler
    rw [if_neg (by decide), if_neg (by decide), if_pos rfl]
    exact h
  refine ⟨h, h2, ?_⟩
  simp only [after, perform, h2]

/-- C15: on a non-empty chain `c` with last block `tip`, handling a query from
the peer `ws` returns normally, leaves the chain and the peer registry
unchanged and sends exactly one message, to `ws` only: for `QUERY_LATEST` a
`RESPONSE_BLOCKCHAIN` with data `[tip]`, for `QUERY_ALL` a
`RESPONSE_BLOCKCHAIN` with data `c`. -/
theorem initMessageHandler_query (sha256 : String → String) (render : ℚ → String)
    (s : Node) (ws : Socket)
    (hc : s.blockchain ≠ []) :
    initMessageHandler sha256 render s ws queryChainLengthMsg =
      .ok { blockchain := s.blockchain, sockets := s.sockets,
            sent := s.sent ++ [(ws, { type := RESPONSE_BLOCKCHAIN,
                                      data := some [s.blockchain.getLast hc] })] } ∧
    initMessageHandler sha256 render s ws queryAllMsg =
      .ok { blockchain := s.blockchain, sockets := s.sockets,
            sent := s.sent ++ [(ws, { type := RESPONSE_BLOCKCHAIN,
                                      data := some s.blockchain })] } := by
  constructor
  · simp [initMessageHandler, queryChainLengthMsg, write, responseLatestMsg,
      getLatestBlock_eq_getLast s hc]
  · simp [initMessageHandler, queryAllMsg, QUERY_ALL, QUERY_LATEST, write, responseChainMsg]

/-- Witness for C15: the peer `7` querying `sampleNode3`. -/
theorem initMessageHandler_query_witness :
    initMessageHandler id sampleRender sampleNode3 7 queryChainLengthMsg =
      .ok { blockchain := sampleNode3.blockchain, sockets := sampleNode3.sockets,
            sent := sampleNode3.sent ++
              [(7, { type := RESPONSE_BLOCKCHAIN,
                     data := some [sampleNode3.blockchain.getLast (by decide)] })] } ∧
    initMessageHandler id sampleRender sampleNode3 7 queryAllMsg =
      .ok { blockchain := sampleNode3.blockchain, sockets := sampleNode3.sockets,
            sent := sampleNode3.sent ++
              [(7, { type := RESPONSE_BLOCKCHAIN, data := some sampleNode3.blockchain })] } :=
  initMessageHandler_query id sampleRender sampleNode3 7 (by decide)

/-- C16: for two block lists that are permutations of each other and whose
indices are pairwise distinct, `handleBlockchainResponse` gives the same
result on either list: the same chain and the same messages sent, or the same
exception. -/
theorem handleBlockchainResponse_order_insensitive (sha256 : String → String) (render : ℚ → String)
    (s : Node)
    (l1 l2 : List Block) (hperm : l1.Perm l2) (hnodup : (l1.map Block.index).Nodup) :
    handleBlockchainResponse sha256 render s { type := RESPONSE_BLOCKCHAIN, data := some l1 } =
      handleBlockchainResponse sha256 render s { type := RESPONSE_BLOCKCHAIN, data := some l2 } := by
  simp only [handleBlockchainResponse, sortByIndex_perm l1 l2 hperm hnodup]

/-- Witness for C16: three blocks with the indices `5`, `0`, `3`, in two
orders. -/
theorem handleBlockchainResponse_order_insensitive_witness :
    handleBlockchainResponse id sampleRender peerNode
        { type := RESPONSE_BLOCKCHAIN,
          data := some [gapBlock, staleLinkedBlock, aheadStrayBlock] } =
      handleBlockchainResponse id sampleRender peerNode
        { type := RESPONSE_BLOCKCHAIN,
          data := some [aheadStrayBlock, gapBlock, staleLinkedBlock] } :=
  handleBlockchainResponse_order_insensitive id sampleRender peerNode
    [gapBlock, staleLinkedBlock, aheadStrayBlock] [aheadStrayBlock, gapBlock, staleLinkedBlock]
    (by decide) (by decide)

/-- C17 (counterexample): the field tuples `(1, "23", 0, "")` and
`(12, "3", 0, "")` differ in index and in `previousHash`, yet
`index+previousHash+timestamp+data` is the same string `"1230"` for both, so
`calculateHash` gives both the same hash under every digest. -/
theorem hashInput_collision :
    ((1 : Int), "23", (0 : ℚ), "") ≠ ((12 : Int), "3", (0 : ℚ), "") ∧
    (∀ render : ℚ → String, hashInput render 1 "23" 0 "" = "1230") ∧
    (∀ render : ℚ → String, hashInput render 12 "3" 0 "" = "1230") ∧
    (∀ (sha256 : String → String) (render : ℚ → String),
      calculateHash sha256 render 1 "23" 0 "" = calculateHash sha256 render 12 "3" 0 "") := by
  have h1 : ∀ render : ℚ → String, hashInput render 1 "23" 0 "" = "1230" := fun _ => rfl
  have h2 : ∀ render : ℚ → String, hashInput render 12 "3" 0 "" = "1230" := fun _ => rfl
  refine ⟨by decide, h1, h2, fun sha256 render => ?_⟩
  rw [calculateHash_eq_hashInput, calculateHash_eq_hashInput, h1, h2]

/-- C17 (amended): the engine rendering different numbers as different strings
(as `Number::toString` does), for two field tuples that differ in exactly one
of the four fields the strings `index+previousHash+timestamp+data` that
`calculateHash` passes to the digest differ, so that with a collision-free
digest the two hashes differ. -/
theorem hashInput_ne_of_one_field (render : ℚ → String) (i i1 : Int) (p p1 : String)
    (t t1 : ℚ) (d d1 : String)
    (hrender : Function.Injective (numberToString render))
    (h : (i ≠ i1 ∧ p = p1 ∧ t = t1 ∧ d = d1) ∨ (i = i1 ∧ p ≠ p1 ∧ t = t1 ∧ d = d1) ∨
         (i = i1 ∧ p = p1 ∧ t ≠ t1 ∧ d = d1) ∨ (i = i1 ∧ p = p1 ∧ t = t1 ∧ d ≠ d1)) :
    hashInput render i p t d ≠ hashInput render i1 p1 t1 d1 ∧
    ∀ sha256 : String → String, Function.Injective sha256 →
      calculateHash sha256 render i p t d ≠ calculateHash sha256 render i1 p1 t1 d1 := by
  have key : hashInput render i p t d ≠ hashInput render i1 p1 t1 d1 := by
    intro heq
    unfold hashInput at heq
    rcases h with ⟨hi, rfl, rfl, rfl⟩ | ⟨rfl, hp, rfl, rfl⟩ | ⟨rfl, rfl, ht, rfl⟩ |
      ⟨rfl, rfl, rfl, hd⟩
    · have h1 := string_append_right_cancel _ _ _ heq
      have h2 := string_append_right_cancel _ _ _ h1
      have h3 := string_append_right_cancel _ _ _ h2
      exact hi (Int.cast_injective (hrender h3))
    · have h1 := string_append_right_cancel _ _ _ heq
      have h2 := string_append_right_cancel _ _ _ h1
      exact hp (string_append_left_cancel _ _ _ h2)
    · have h1 := string_append_right_cancel _ _ _ heq
      have h2 := string_append_left_cancel _ _ _ h1
      exact ht (hrender h2)
    · exact hd (string_append_left_cancel _ _ _ heq)
  refine ⟨key, fun sha256 hinj heq => ?_⟩
  rw [calculateHash_eq_hashInput, calculateHash_eq_hashInput] at heq
  exact key (hinj heq)

/-- Witness for C17 (amended): the genesis fields and the same fields with the
fractional timestamp `1465154705.123`, under the identity digest and the
injective rendering `tallyRender`. -/
theorem hashInput_ne_of_one_field_witness :
    hashInput tallyRender 0 "0" 1465154705 "my genesis block!!" ≠
      hashInput tallyRender 0 "0" (1465154705123 / 1000) "my genesis block!!" ∧
    calculateHash id tallyRender 0 "0" 1465154705 "my genesis block!!" ≠
      calculateHash id tallyRender 0 "0" (1465154705123 / 1000) "my genesis block!!" :=
  ⟨(hashInput_ne_of_one_field tallyRender 0 0 "0" "0" 1465154705 (1465154705123 / 1000)
      "my genesis block!!" "my genesis block!!" numberToString_tallyRender_injective
      (Or.inr (Or.inr (Or.inl ⟨rfl, rfl, by norm_num, rfl⟩)))).1,
   (hashInput_ne_of_one_field tallyRender 0 0 "0" "0" 1465154705 (1465154705123 / 1000)
      "my genesis block!!" "my genesis block!!" numberToString_tallyRender_injective
      (Or.inr (Or.inr (Or.inl ⟨rfl, rfl, by norm_num, rfl⟩)))).2 id Function.injective_id⟩

/-- C18: for every node state and every operation (mining, `addBlock`,
`replaceChain`, handling any peer message, opening or closing a connection),
the chain after the operation is the chain before, or the chain before with
exactly one block appended at the end, or a whole replacement that
`isValidChain` accepts and that is strictly longer; so its length never
decreases. -/
theorem chain_never_shrinks (sha256 : String → String) (render : ℚ → String)
    (s : Node) (op : Operation) :
    ((after sha256 render s op).blockchain = s.blockchain ∨
     (∃ b, (after sha256 render s op).blockchain = s.blockchain ++ [b]) ∨
     (isValidChain sha256 render (after sha256 render s op).blockchain = true ∧
       (after sha256 render s op).blockchain.length > s.blockchain.length)) ∧
    s.blockchain.length ≤ (after sha256 render s op).blockchain.length := by
  rcases chainStep_after sha256 render s op with h1 | ⟨b, tip, _, _, h2⟩ | ⟨h3, h4⟩
  · exact ⟨Or.inl h1, by rw [h1]⟩
  · exact ⟨Or.inr (Or.inl ⟨b, h2⟩), by rw [h2]; simp⟩
  · exact ⟨Or.inr (Or.inr ⟨h3, h4⟩), by omega⟩

/-- C19: in every node state reachable from the state at start-up by any
sequence of operations, the chain is non-empty and its first block is the
genesis block, so `getLatestBlock` returns a block: the position
`blockchain.length - 1` is in range. -/
theorem reachable_chain_nonempty (sha256 : String → String) (render : ℚ → String) (s : Node)
    (h : Reachable sha256 render s) :
    s.blockchain ≠ [] ∧
    s.blockchain.head? = some getGenesisBlock ∧
    (∃ tip, getLatestBlock s = some tip) ∧
    s.blockchain.length - 1 < s.blockchain.length := by
  have hh := reachable_head sha256 render s h
  have hne : s.blockchain ≠ [] := by
    intro h0
    rw [h0] at hh
    simp at hh
  refine ⟨hne, hh, ⟨_, getLatestBlock_eq_getLast s hne⟩, ?_⟩
  have := List.length_pos.mpr hne
  omega

/-- Witness for C19: the state reached from start-up by handling a response
that carries `gapBlock`. -/
theorem reachable_chain_nonempty_witness :
    (after id sampleRender initialNode
        (.message 1 { type := RESPONSE_BLOCKCHAIN, data := some [gapBlock] })).blockchain ≠ [] ∧
    (after id sampleRender initialNode
        (.message 1 { type := RESPONSE_BLOCKCHAIN, data := some [gapBlock] })).blockchain.head? =
      some getGenesisBlock ∧
    (∃ tip, getLatestBlock (after id sampleRender initialNode
        (.message 1 { type := RESPONSE_BLOCKCHAIN, data := some [gapBlock] })) = some tip) ∧
    (after id sampleRender initialNode
        (.message 1 { type := RESPONSE_BLOCKCHAIN, data := some [gapBlock] })).blockchain.length - 1
      < (after id sampleRender initialNode
        (.message 1 { type := RESPONSE_BLOCKCHAIN, data := some [gapBlock] })).blockchain.length :=
  reachable_chain_nonempty id sampleRender _ (Reachable.step initialNode _ Reachable.init)

/-- C20 (counterexample): from the state at start-up, handling a response that
carries `hugeBlock` (index `2^53`, taken by the fast path) and then mining
leads to a chain with the indices `0, 2^53, 2^53`, which are not strictly
increasing: the mined index `2^53 + 1` rounds to `2^53`. -/
theorem reachable_indices_repeat :
    (∀ (sha256 : String → String) (render : ℚ → String),
      Reachable sha256 render
        (after sha256 render
          (after sha256 render initialNode
            (.message 1 { type := RESPONSE_BLOCKCHAIN, data := some [hugeBlock] }))
          (.mine "a" 0)) ∧
      (after sha256 render
          (after sha256 render initialNode
            (.message 1 { type := RESPONSE_BLOCKCHAIN, data := some [hugeBlock] }))
          (.mine "a" 0)).blockchain.map Block.index =
        [0, 9007199254740992, 9007199254740992]) ∧
    ¬ ([0, 9007199254740992, 9007199254740992] : List Int).Pairwise (fun x y => x < y) := by
  refine ⟨fun sha256 render => ⟨Reachable.step _ _ (Reachable.step _ _ Reachable.init), ?_⟩,
    by decide⟩
  have h1 : after sha256 render initialNode
      (.message 1 { type := RESPONSE_BLOCKCHAIN, data := some [hugeBlock] }) =
      { blockchain := [getGenesisBlock, hugeBlock], sockets := [], sent := [] } := rfl
  have hc : ({ blockchain := [getGenesisBlock, hugeBlock], sockets := [], sent := [] } :
      Node).blockchain ≠ [] := by decide
  rw [h1]
  have hmine := mineBlock_eq sha256 render _ "a" 0 _ hc
    (generateNextBlock_eq sha256 render _ "a" 0 hc)
  simp only [after, perform, hmine]
  simp [getGenesisBlock, hugeBlock, jsPlusOne]

/-- C20 (amended): in every node state reachable from the genesis-only state at
start-up by any sequence of operations, the block indices along the chain
start from `0` and never decrease, and the index of a block is strictly
greater than the index of the block before it whenever that earlier index is
below `2^53`; hence, as long as the index of the last block is below `2^53`,
the indices are strictly increasing, the block at position `i` has an index of
at least `i`, and the index of the last block is at least `len(chain) - 1`,
also for blocks admitted by the unvalidated fast-path append. -/
theorem reachable_indices_increasing (sha256 : String → String) (render : ℚ → String)
    (s : Node) (h : Reachable sha256 render s) :
    (s.blockchain.head?.map Block.index = some 0) ∧
    s.blockchain.Pairwise (fun b1 b2 => b1.index ≤ b2.index) ∧
    (∀ (i : Nat) (hi : i + 1 < s.blockchain.length),
      (s.blockchain.get ⟨i, Nat.lt_of_succ_lt hi⟩).index < 9007199254740992 →
      (s.blockchain.get ⟨i, Nat.lt_of_succ_lt hi⟩).index <
        (s.blockchain.get ⟨i + 1, hi⟩).index) ∧
    (∀ tip, getLatestBlock s = some tip → tip.index < 9007199254740992 →
      s.blockchain.Pairwise (fun b1 b2 => b1.index < b2.index) ∧
      (∀ (i : Nat) (hi : i < s.blockchain.length),
        (i : Int) ≤ (s.blockchain.get ⟨i, hi⟩).index) ∧
      (s.blockchain.length : Int) - 1 ≤ tip.index) := by
  have hstep := reachable_indexStep sha256 render s h
  have hle := reachable_pairwise_le sha256 render s h
  have hh := reachable_head sha256 render s h
  have h0 : ∀ hpos : 0 < s.blockchain.length, (s.blockchain.get ⟨0, hpos⟩).index = 0 := by
    intro hpos
    have e : s.blockchain[0]? = some getGenesisBlock := by
      rw [← hh]
      exact (List.head?_eq_getElem? _).symm
    rw [List.getElem?_eq_getElem hpos] at e
    rw [List.get_eq_getElem, Option.some.inj e]
    rfl
  have hnonneg : ∀ (i : Nat) (hi : i < s.blockchain.length),
      0 ≤ (s.blockchain.get ⟨i, hi⟩).index := by
    intro i hi
    rcases Nat.eq_zero_or_pos i with hz | hp
    · subst hz
      rw [h0 hi]
    · have := List.pairwise_iff_get.mp hle ⟨0, by omega⟩ ⟨i, hi⟩ (by simpa using hp)
      unfold indexLe at this
      rw [h0 (by omega)] at this
      exact this
  refine ⟨by rw [hh]; rfl, hle, ?_, ?_⟩
  · intro i hi hsmall
    have := List.chain'_iff_get.mp hstep i (by omega)
    exact indexStep_lt _ _ this (by have := hnonneg i (by omega); omega) hsmall
  · intro tip htip hsmall
    have hne : s.blockchain ≠ [] := by
      intro hnil
      simp [getLatestBlock, hnil] at htip
    have htip2 : tip = s.blockchain.getLast hne := by
      have := getLatestBlock_eq_getLast s hne
      rw [htip] at this
      exact Option.some.inj this
    have hall : ∀ a ∈ s.blockchain, a.index < 9007199254740992 := by
      intro a ha
      have := index_le_getLast s.blockchain hle hne a ha
      rw [← htip2] at this
      omega
    have hlt := chain_indexLt_of_small s.blockchain hstep h0 hall
    have hpos := index_ge_position s.blockchain hlt h0
    refine ⟨hlt, hpos, ?_⟩
    have hlen := List.length_pos.mpr hne
    have hlast : s.blockchain.getLast? =
        some (s.blockchain.get ⟨s.blockchain.length - 1, by omega⟩) := by
      rw [List.getLast?_eq_getElem?, List.getElem?_eq_getElem (by omega)]
      rfl
    unfold getLatestBlock at htip
    rw [hlast] at htip
    have := hpos (s.blockchain.length - 1) (by omega)
    rw [Option.some.inj htip] at this
    omega

/-- Witness for C20 (amended): the state reached from start-up by handling a
response that carries `gapBlock`, whose chain has the indices `0, 5`. -/
theorem reachable_indices_increasing_witness :
    (after id sampleRender initialNode
        (.message 1 { type := RESPONSE_BLOCKCHAIN, data := some [gapBlock] })).blockchain =
      [getGenesisBlock, gapBlock] ∧
    (after id sampleRender initialNode
        (.message 1 { type := RESPONSE_BLOCKCHAIN, data := some [gapBlock] })).blockchain.Pairwise
      (fun b1 b2 => b1.index < b2.index) :=
  ⟨by decide,
   ((reachable_indices_increasing id sampleRender _
      (Reachable.step initialNode _ Reachable.init)).2.2.2 gapBlock (by decide) (by decide)).1⟩

end Naivechain
